import Mathlib

/-!
Verification development for the WikiGuessr bounded bidirectional BFS solver.

The definitions below are a shallow embedding of:
  * `src/lib/wiki/normalize.ts` — title canonicalization and the blocklist;
  * the bounded bidirectional BFS solver module (`runBFS`, `expandFrontier`,
    `reconstructPath`, the cache adapter, and its entry points
    `quickDistanceCheck`, `runSolver`, `findShortestPath`,
    `findShortestPathExtended`);
  * the pure helper `getDistanceFromOptimalPath` of the game-session module.

Modelling conventions:
  * JavaScript strings are Lean `String`s; character-level operations
    (`toUpperCase`/`toLowerCase` applied to single characters, `\s`) are
    modelled on the ASCII range, which is where every title operation in the
    repository lives.
  * The external link fetch `getOutgoingLinks` is a function
    `String → Option (List String)`; `none` models a fetch that throws.
  * Wall-clock time: the k-th evaluation of `Date.now() - startTime` inside a
    single search invocation is modelled by an abstract stream
    `elapsed : ℕ → ℕ` carried by the environment.
  * JavaScript `Map` and the key-value cache store are association lists with
    JS `Map.set` semantics (update in place, insert at the end).
-/

namespace WikiGuessr

/-! ## Character helpers (ASCII models of the JS string primitives) -/

/-- JS `\s` and `String.prototype.trim` whitespace, ASCII range. -/
def isWs (c : Char) : Bool :=
  c = ' ' || c = '\t' || c = '\n' || c = '\r' || c = '\x0b' || c = '\x0c'

/-- `ch.toUpperCase()` for a single character, ASCII range
(`'a'..'z'` is code 97..122). -/
def upChar (c : Char) : Char :=
  if 97 ≤ c.toNat ∧ c.toNat ≤ 122 then Char.ofNat (c.toNat - 32) else c

/-- `ch.toLowerCase()` for a single character, ASCII range
(`'A'..'Z'` is code 65..90). -/
def lowChar (c : Char) : Char :=
  if 65 ≤ c.toNat ∧ c.toNat ≤ 90 then Char.ofNat (c.toNat + 32) else c

/-- `s.toLowerCase()`, ASCII range. -/
def toLowerJS (s : String) : String := String.mk (s.data.map lowChar)

/-- Value of a hexadecimal digit, used by the `decodeURIComponent` model. -/
def hexVal (c : Char) : Option ℕ :=
  if '0' ≤ c ∧ c ≤ '9' then some (c.toNat - 48)
  else if 'a' ≤ c ∧ c ≤ 'f' then some (c.toNat - 87)
  else if 'A' ≤ c ∧ c ≤ 'F' then some (c.toNat - 55)
  else none

/-- A UTF-8 continuation byte. -/
def contB (b : ℕ) : Bool := 0x80 ≤ b && b ≤ 0xBF

/-- Strict UTF-8 decoding of a byte run, as performed by `decodeURIComponent`
on a maximal run of percent-escapes; `none` models a thrown `URIError`. -/
def utf8Run : List ℕ → Option (List Char)
  | [] => some []
  | b :: bs =>
    if b < 0x80 then
      (utf8Run bs).map (fun cs => Char.ofNat b :: cs)
    else if 0xC2 ≤ b && b ≤ 0xDF then
      match bs with
      | b1 :: bs' =>
        if contB b1 then
          (utf8Run bs').map (fun cs =>
            Char.ofNat ((b - 0xC0) * 0x40 + (b1 - 0x80)) :: cs)
        else none
      | [] => none
    else if 0xE0 ≤ b && b ≤ 0xEF then
      match bs with
      | b1 :: b2 :: bs' =>
        if (if b = 0xE0 then 0xA0 else 0x80) ≤ b1 &&
            b1 ≤ (if b = 0xED then 0x9F else 0xBF) && contB b2 then
          (utf8Run bs').map (fun cs =>
            Char.ofNat ((b - 0xE0) * 0x1000 + (b1 - 0x80) * 0x40 + (b2 - 0x80)) :: cs)
        else none
      | _ => none
    else if 0xF0 ≤ b && b ≤ 0xF4 then
      match bs with
      | b1 :: b2 :: b3 :: bs' =>
        if (if b = 0xF0 then 0x90 else 0x80) ≤ b1 &&
            b1 ≤ (if b = 0xF4 then 0x8F else 0xBF) && contB b2 && contB b3 then
          (utf8Run bs').map (fun cs =>
            Char.ofNat ((b - 0xF0) * 0x40000 + (b1 - 0x80) * 0x1000 +
              (b2 - 0x80) * 0x40 + (b3 - 0x80)) :: cs)
        else none
      | _ => none
    else none

/-- Reads the maximal run of `%XX` escapes at the head of the input, returning
the decoded bytes and the rest; `none` models a malformed escape. -/
def pctBytes : List Char → Option (List ℕ × List Char)
  | '%' :: h1 :: h2 :: rest =>
    match hexVal h1, hexVal h2 with
    | some a, some b =>
      match pctBytes rest with
      | some (bs, rest') => some ((16 * a + b) :: bs, rest')
      | none => none
    | _, _ => none
  | '%' :: rest => if rest.length < 2 then none else none
  | cs => some ([], cs)

/-- One pass of `decodeURIComponent` over a character list (fuelled; the fuel
is always sufficient because every step consumes at least one character).
`none` models a thrown `URIError`. -/
def pctDecodeGo : ℕ → List Char → Option (List Char)
  | 0, _ => none
  | _ + 1, [] => some []
  | fuel + 1, c :: cs =>
    if c = '%' then
      match pctBytes (c :: cs) with
      | none => none
      | some (bs, rest) =>
        match utf8Run bs with
        | none => none
        | some out => (pctDecodeGo fuel rest).map (fun tl => out ++ tl)
    else (pctDecodeGo fuel cs).map (fun tl => c :: tl)

/-- `decodeURIComponent`, modelled on character lists. -/
def decodeURIComp (cs : List Char) : Option (List Char) :=
  pctDecodeGo (cs.length + 1) cs

/-- The double-decoding loop of `canonicalTitle` step 1:
`while (decoded !== prev && decoded.includes('%'))`. The fuel is always
sufficient because a successful decode of a string containing `%` is strictly
shorter. `none` models a `URIError` escaping to the surrounding `catch`. -/
def decodeLoopGo : ℕ → List Char → List Char → Option (List Char)
  | 0, _, cur => some cur
  | fuel + 1, prev, cur =>
    if cur ≠ prev ∧ cur.contains '%' then
      match decodeURIComp cur with
      | none => none
      | some d => decodeLoopGo fuel cur d
    else some cur

/-! ## `canonicalTitle` (normalize.ts) -/

/-- Step 2 of `canonicalTitle`: strip one of the known leading route markers
(`/wiki/`, `./`, `wiki/`), first match only. -/
def stripPre (cs : List Char) : List Char :=
  if List.isPrefixOf "/wiki/".data cs then cs.drop 6
  else if List.isPrefixOf "./".data cs then cs.drop 2
  else if List.isPrefixOf "wiki/".data cs then cs.drop 5
  else cs

/-- Step 3 of `canonicalTitle`: remove everything from the first `#` on
(`indexOf`/`substring` in the source, equivalently `takeWhile`). -/
def cutHash (cs : List Char) : List Char := cs.takeWhile (fun c => c ≠ '#')

/-- Step 4 of `canonicalTitle`: `replace(/_/g, ' ')`. -/
def underscoresToSpaces (cs : List Char) : List Char :=
  cs.map (fun c => if c = '_' then ' ' else c)

/-- `String.prototype.trim`. -/
def trimBoth (cs : List Char) : List Char :=
  ((cs.dropWhile isWs).reverse.dropWhile isWs).reverse

/-- Worker for `replace(/\s+/g, ' ')`: the boolean flag records whether we are
inside a whitespace run that has already emitted its single space. -/
def collapseGo : Bool → List Char → List Char
  | _, [] => []
  | inRun, c :: cs =>
    if isWs c then
      if inRun then collapseGo true cs else ' ' :: collapseGo true cs
    else c :: collapseGo false cs

/-- Step 5 of `canonicalTitle` (after `trim`): `replace(/\s+/g, ' ')`. -/
def collapseWs (cs : List Char) : List Char := collapseGo false cs

/-- Step 6 of `canonicalTitle`: uppercase the first character. -/
def upFirst : List Char → List Char
  | [] => []
  | c :: cs => upChar c :: cs

/-- Steps 1–4 of `canonicalTitle` on a non-empty input: decode (keeping the
original when decoding throws), strip one leading marker, drop the fragment,
replace underscores. -/
def preCanon (cs : List Char) : List Char :=
  let decoded :=
    match decodeLoopGo (cs.length + 2) [] cs with
    | some d => d
    | none => cs
  underscoresToSpaces (cutHash (stripPre decoded))

/-- The body of `canonicalTitle` on a non-empty input: steps 1–4, then trim
and collapse whitespace, then uppercase the first character. -/
def canonCore (cs : List Char) : List Char :=
  upFirst (collapseWs (trimBoth (preCanon cs)))

/-- `canonicalTitle(input: string | null | undefined): string`. `none` models
`null`/`undefined`; the falsy check also sends `""` to `""`. -/
def canonicalTitle : Option String → String
  | none => ""
  | some s => if s = "" then "" else String.mk (canonCore s.data)

/-- `canonicalTitle` applied to a plain string argument. -/
def canonicalTitleS (s : String) : String := canonicalTitle (some s)

/-- `normalizeTitle` from client.ts simply forwards to `canonicalTitle`. -/
def normalizeTitle (s : String) : String := canonicalTitleS s

/-! ## Blocklist (normalize.ts) -/

/-- The curated `BLOCKED_TITLES` set, in source order. -/
def BLOCKED_TITLES : List String :=
  ["ISSN (identifier)", "ISSN", "EISSN (identifier)", "EISSN",
   "ISBN (identifier)", "ISBN", "Digital object identifier",
   "DOI (identifier)", "DOI", "Doi (identifier)", "PubMed Identifier",
   "PubMed", "PubMed Central", "PMID (identifier)", "PMID",
   "JSTOR (identifier)", "JSTOR", "OCLC (identifier)", "OCLC", "WorldCat",
   "Bibcode (identifier)", "Bibcode", "ArXiv (identifier)", "ArXiv", "Arxiv",
   "S2CID (identifier)", "S2CID", "Semantic Scholar", "Google Scholar",
   "Google Books", "HDL (identifier)", "HDL", "Handle System",
   "LCCN (identifier)", "LCCN", "Library of Congress Control Number",
   "PMC (identifier)", "PMC", "SSRN (identifier)", "SSRN",
   "Social Science Research Network", "Zbl (identifier)", "Zbl",
   "MR (identifier)", "MR", "Mathematical Reviews", "VIAF (identifier)",
   "VIAF", "GND (identifier)", "GND", "ISNI (identifier)", "ISNI",
   "ORCID (identifier)", "ORCID", "Wayback Machine", "Internet Archive",
   "Archive.org", "Web archive", "Wikiwix", "Archive.today", "Cite web",
   "Citation needed", "Subscription required", "Registration required"]

/-- Lower-cased copy of the blocklist, for case-insensitive matching. -/
def BLOCKED_TITLES_LOWER : List String := BLOCKED_TITLES.map toLowerJS

/-- `haystack.includes(needle)` on character lists. -/
def hasSub (pat : List Char) : List Char → Bool
  | [] => pat.isEmpty
  | c :: cs => List.isPrefixOf pat (c :: cs) || hasSub pat cs

/-- `isBlockedTitle(title)`: blocked when falsy, when the canonical form is in
the blocklist (exactly or case-insensitively), or when it contains the
`(identifier)` marker. -/
def isBlockedTitle (title : String) : Bool :=
  if title = "" then true
  else
    let normalized := canonicalTitleS title
    if BLOCKED_TITLES.contains normalized then true
    else if BLOCKED_TITLES_LOWER.contains (toLowerJS normalized) then true
    else if hasSub "(identifier)".data (toLowerJS normalized).data then true
    else false

/-- `filterBlockedTitles(titles)`. -/
def filterBlockedTitles (titles : List String) : List String :=
  titles.filter (fun title => !isBlockedTitle title)

/-! ## Association lists: JS `Map` / key-value store semantics -/

/-- `Map.prototype.get`. -/
def aget {β : Type} : List (String × β) → String → Option β
  | [], _ => none
  | (a, v) :: m, k => if a = k then some v else aget m k

/-- `Map.prototype.set`: update in place, insert at the end. -/
def aset {β : Type} : List (String × β) → String → β → List (String × β)
  | [], k, v => [(k, v)]
  | (a, w) :: m, k, v => if a = k then (k, v) :: m else (a, w) :: aset m k v

/-- The visited maps of the search: node ↦ parent node or `null` (root). -/
abbrev VMap := List (String × Option String)

/-- Keys of an association list, in insertion order. -/
def keysOf {β : Type} (m : List (String × β)) : List String := m.map Prod.fst

/-- `Set.prototype.add` on an insertion-ordered duplicate-free list. -/
def sadd (l : List String) (x : String) : List String :=
  if l.contains x then l else l ++ [x]

/-! ## Solver data model -/

/-- `SolverStatus`. -/
inductive SolverStatus
  | POSSIBLE
  | NOT_POSSIBLE
  | UNKNOWN
deriving DecidableEq, Repr

/-- The three result shapes actually returned by `runBFS`: a `POSSIBLE` result
always carries both `distance` and `path`; the other two carry a `reason`. -/
inductive SolverResult
  | possible (distance : ℕ) (path : List String)
  | notPossible (reason : String)
  | unknown (reason : String)
deriving DecidableEq, Repr

def SolverResult.status : SolverResult → SolverStatus
  | .possible _ _ => .POSSIBLE
  | .notPossible _ => .NOT_POSSIBLE
  | .unknown _ => .UNKNOWN

/-- `result.distance ?? null`. -/
def SolverResult.distanceOpt : SolverResult → Option ℕ
  | .possible d _ => some d
  | _ => none

/-- The full `SolverResult` record of the TypeScript interface, as returned by
the solver entry points (all fields optional there). -/
structure SolverResultR where
  status : SolverStatus
  distance : Option ℕ
  d_start : Option ℕ
  path : Option (List String)
  reason : Option String
deriving DecidableEq, Repr

/-- The `{ ...result, d_start: result.distance }` spread used by the entry
points. -/
def SolverResult.toR : SolverResult → SolverResultR
  | .possible d p => ⟨.POSSIBLE, some d, some d, some p, none⟩
  | .notPossible r => ⟨.NOT_POSSIBLE, none, none, none, some r⟩
  | .unknown r => ⟨.UNKNOWN, none, none, none, some r⟩

/-- The external collaborators of one search invocation: the link fetch
(`none` models a thrown fetch error for that node) and the elapsed
wall-clock time observed at the k-th budget time check. -/
structure Env where
  fetch : String → Option (List String)
  elapsed : ℕ → ℕ

/-- Solver configuration constants. -/
def DEFAULT_MAX_DEPTH : ℕ := 7
def MAX_VISITED_NODES : ℕ := 50000
def MAX_TIME_MS : ℕ := 5000
def QUICK_MAX_DEPTH : ℕ := 5
def QUICK_MAX_NODES : ℕ := 5000
def QUICK_MAX_TIME_MS : ℕ := 1500

/-! ## Frontier expansion (`expandFrontier`) -/

/-- Result of the inner `for (const link of links)` loop: a meeting was found,
the node budget was hit just after an insertion, or the links were
exhausted. Each carries the mutated own-visited map, the accumulated next
frontier and the visited counter. -/
inductive LinksStep
  | meet (visited : VMap) (newFrontier : List String) (totalVisited : ℕ) (L : String)
  | full (visited : VMap) (newFrontier : List String) (totalVisited : ℕ)
  | done (visited : VMap) (newFrontier : List String) (totalVisited : ℕ)
deriving DecidableEq, Repr

/-- The inner neighbour loop of `expandFrontier`: skip blocked titles, detect a
meeting with the other direction, otherwise record unseen neighbours and
enforce the node budget after each insertion. -/
def expandLinks (node : String) (otherVisited : VMap) (maxNodes : ℕ) :
    List String → VMap → List String → ℕ → LinksStep
  | [], visited, newFrontier, tv => .done visited newFrontier tv
  | link :: rest, visited, newFrontier, tv =>
    let normalizedLink := normalizeTitle link
    if isBlockedTitle normalizedLink then
      expandLinks node otherVisited maxNodes rest visited newFrontier tv
    else if (aget otherVisited normalizedLink).isSome then
      .meet (aset visited normalizedLink (some node)) newFrontier tv normalizedLink
    else if (aget visited normalizedLink).isSome then
      expandLinks node otherVisited maxNodes rest visited newFrontier tv
    else
      let visited' := aset visited normalizedLink (some node)
      let newFrontier' := sadd newFrontier normalizedLink
      let tv' := tv + 1
      if maxNodes ≤ tv' then .full visited' newFrontier' tv'
      else expandLinks node otherVisited maxNodes rest visited' newFrontier' tv'

/-- `ExpandResult` plus the two pieces of state the TypeScript version mutates
in place: the own visited map and the time-check counter. -/
structure ExpandResult where
  newFrontier : List String
  meetingPoint : Option String
  budgetExceeded : Bool
  reason : Option String
  totalVisited : ℕ
  visited : VMap
  k : ℕ
deriving DecidableEq, Repr

/-- `expandFrontier`: per frontier node, check the time and node budgets,
fetch the node's outgoing links (a failed fetch is caught and the node's
expansion skipped), then run the inner neighbour loop. -/
def expandFrontier (env : Env) (otherVisited : VMap) (maxTimeMs maxNodes : ℕ) :
    List String → VMap → ℕ → List String → ℕ → ExpandResult
  | [], visited, tv, newFrontier, k =>
    ⟨newFrontier, none, false, none, tv, visited, k⟩
  | node :: rest, visited, tv, newFrontier, k =>
    if maxTimeMs < env.elapsed k then
      ⟨newFrontier, none, true, some "Time budget exceeded", tv, visited, k + 1⟩
    else if maxNodes ≤ tv then
      ⟨newFrontier, none, true, some "Node budget exceeded", tv, visited, k + 1⟩
    else
      match env.fetch node with
      | none => expandFrontier env otherVisited maxTimeMs maxNodes rest visited tv newFrontier (k + 1)
      | some links =>
        match expandLinks node otherVisited maxNodes links visited newFrontier tv with
        | .meet visited' nf tv' L =>
          ⟨nf, some L, false, none, tv', visited', k + 1⟩
        | .full visited' nf tv' =>
          ⟨nf, none, true, some "Node budget exceeded", tv', visited', k + 1⟩
        | .done visited' nf tv' =>
          expandFrontier env otherVisited maxTimeMs maxNodes rest visited' tv' nf (k + 1)

/-! ## Path reconstruction (`reconstructPath`) -/

/-- Forward walk: follow parent pointers from the meeting point back to the
root, prepending along the way. The fuel bounds the walk; it is always
sufficient on the acyclic maps the search constructs, on which the source's
`while` loop terminates. -/
def walkF : ℕ → VMap → String → List String
  | 0, _, _ => []
  | fuel + 1, m, c =>
    match aget m c with
    | some (some p) => walkF fuel m p ++ [c]
    | _ => [c]

/-- Backward walk: start from the meeting point's parent in the backward map
and follow parent pointers, appending along the way. -/
def walkB : ℕ → VMap → String → List String
  | 0, _, _ => []
  | fuel + 1, m, c =>
    match aget m c with
    | some (some p) => p :: walkB fuel m p
    | _ => []

/-- `reconstructPath(meetingPoint, forwardVisited, backwardVisited)`. -/
def reconstructPath (meetingPoint : String)
    (forwardVisited backwardVisited : VMap) : List String :=
  walkF (forwardVisited.length + 1) forwardVisited meetingPoint ++
    walkB (backwardVisited.length + 1) backwardVisited meetingPoint

/-! ## The bidirectional loop (`runBFS`) -/

/-- The `while` loop of `runBFS`. `remaining` stands for
`maxDepth - (forwardDepth + backwardDepth)`, the only combination of the two
depth counters the source ever uses; it decreases by one per round. `tv` is
`totalVisited` and `k` counts the time checks performed so far. -/
def bfsLoop (env : Env) (maxDepth maxNodes maxTimeMs : ℕ) :
    ℕ → List String → List String → VMap → VMap → ℕ → ℕ → SolverResult
  | 0, _, _, _, _, _, _ =>
    .notPossible ("No path found within " ++ toString maxDepth ++ " hops")
  | remaining + 1, fwdF, bwdF, fwdV, bwdV, tv, k =>
    if fwdF.isEmpty || bwdF.isEmpty then
      .notPossible ("No path found within " ++ toString maxDepth ++ " hops")
    else if maxTimeMs < env.elapsed k then
      .unknown "Time budget exceeded"
    else if maxNodes ≤ tv then
      .unknown "Node budget exceeded"
    else if fwdF.length ≤ bwdF.length then
      let r := expandFrontier env bwdV maxTimeMs maxNodes fwdF fwdV tv [] (k + 1)
      match r.meetingPoint with
      | some L =>
        let path := reconstructPath L r.visited bwdV
        .possible (path.length - 1) path
      | none =>
        if r.budgetExceeded then .unknown (r.reason.getD "")
        else
          bfsLoop env maxDepth maxNodes maxTimeMs remaining
            r.newFrontier bwdF r.visited bwdV r.totalVisited r.k
    else
      let r := expandFrontier env fwdV maxTimeMs maxNodes bwdF bwdV tv [] (k + 1)
      match r.meetingPoint with
      | some L =>
        let path := reconstructPath L fwdV r.visited
        .possible (path.length - 1) path
      | none =>
        if r.budgetExceeded then .unknown (r.reason.getD "")
        else
          bfsLoop env maxDepth maxNodes maxTimeMs remaining
            fwdF r.newFrontier fwdV r.visited r.totalVisited r.k

/-- `runBFS(startTitle, targetTitle, maxDepth, maxNodes, maxTimeMs)`. -/
def runBFS (env : Env) (startTitle targetTitle : String)
    (maxDepth maxNodes maxTimeMs : ℕ) : SolverResult :=
  if startTitle = targetTitle then .possible 0 [startTitle]
  else
    bfsLoop env maxDepth maxNodes maxTimeMs maxDepth
      [startTitle] [targetTitle] [(startTitle, none)] [(targetTitle, none)] 2 0

/-! ## Cache adapter and entry points -/

/-- `CachedPath`: what the path cache stores. -/
structure CachedPath where
  distance : Option ℕ
  path : Option (List String)
  status : SolverStatus
deriving DecidableEq, Repr

/-- The external key-value store (Redis or its in-memory fallback), as an
insertion-ordered association list; TTL expiry is owned by the collaborator
and out of scope. -/
abbrev Store := List (String × CachedPath)

/-- `pathContainsBlockedTitle(path)`. -/
def pathContainsBlockedTitle : Option (List String) → Bool
  | none => false
  | some p => p.any isBlockedTitle

/-- The cache key `${CACHE_KEYS.RESOLVE}path:${CACHE_VERSION}:${from}:${to}`
with `CACHE_KEYS.RESOLVE = "resolve:"` and `CACHE_VERSION = "v2"`. -/
def pathCacheKey (a b : String) : String :=
  "resolve:" ++ "path:" ++ "v2" ++ ":" ++ a ++ ":" ++ b

/-- `getCachedPath(from, to)`: a hit whose path contains a blocked title is
invalidated (treated as absent). -/
def getCachedPath (store : Store) (a b : String) : Option CachedPath :=
  match aget store (pathCacheKey a b) with
  | none => none
  | some cached =>
    if pathContainsBlockedTitle cached.path then none else some cached

/-- `setCachedPath(from, to, result)`: skipped entirely when the path contains
a blocked title. -/
def setCachedPath (store : Store) (a b : String) (result : CachedPath) : Store :=
  if pathContainsBlockedTitle result.path then store
  else aset store (pathCacheKey a b) result

/-- `DistanceResult`. -/
inductive KnownTag
  | KNOWN
  | UNKNOWN
deriving DecidableEq, Repr

structure DistanceResult where
  distance : Option ℕ
  status : KnownTag
deriving DecidableEq, Repr

/-- The part of `quickDistanceCheck` after the cache read: same-article
short-circuit, then a quick-budget BFS whose result is not cached. -/
def quickCore (env : Env) (store : Store) (nc nt : String) :
    DistanceResult × Store :=
  if nc = nt then (⟨some 0, .KNOWN⟩, store)
  else
    let result := runBFS env nc nt QUICK_MAX_DEPTH QUICK_MAX_NODES QUICK_MAX_TIME_MS
    (⟨result.distanceOpt,
      if result.status = .POSSIBLE then .KNOWN else .UNKNOWN⟩, store)

/-- `quickDistanceCheck(currentTitle, targetTitle)`: reads the cache, never
writes it. The returned store is the store after the call. -/
def quickDistanceCheck (env : Env) (store : Store)
    (currentTitle targetTitle : String) : DistanceResult × Store :=
  let nc := normalizeTitle currentTitle
  let nt := normalizeTitle targetTitle
  match getCachedPath store nc nt with
  | some cached =>
    if cached.status = .POSSIBLE then (⟨cached.distance, .KNOWN⟩, store)
    else quickCore env store nc nt
  | none => quickCore env store nc nt

/-- The part of `runSolver` after the cache read: full-budget BFS, then cache
the result when (and only when) it is `POSSIBLE` with a path. -/
def runSolverCore (env : Env) (store : Store) (ns nt : String) (maxDepth : ℕ) :
    SolverResultR × Store :=
  let result := runBFS env ns nt maxDepth MAX_VISITED_NODES MAX_TIME_MS
  let store' :=
    match result with
    | .possible d p => setCachedPath store ns nt ⟨some d, some p, .POSSIBLE⟩
    | _ => store
  (result.toR, store')

/-- `runSolver(startTitle, targetTitle, maxDepth)`. -/
def runSolver (env : Env) (store : Store) (startTitle targetTitle : String)
    (maxDepth : ℕ) : SolverResultR × Store :=
  let ns := normalizeTitle startTitle
  let nt := normalizeTitle targetTitle
  match getCachedPath store ns nt with
  | some cached =>
    if cached.status = .POSSIBLE ∧ cached.path.isSome then
      (⟨.POSSIBLE, cached.distance, cached.distance, cached.path, none⟩, store)
    else runSolverCore env store ns nt maxDepth
  | none => runSolverCore env store ns nt maxDepth

/-- `findShortestPath` forwards to `runSolver`. -/
def findShortestPath (env : Env) (store : Store) (startTitle targetTitle : String)
    (maxDepth : ℕ) : SolverResultR × Store :=
  runSolver env store startTitle targetTitle maxDepth

/-- The part of `findShortestPathExtended` after the cache read: BFS with the
extended budget (200000 nodes, 30000 ms), then the same caching policy. -/
def findShortestPathExtendedCore (env : Env) (store : Store) (ns nt : String)
    (maxDepth : ℕ) : SolverResultR × Store :=
  let result := runBFS env ns nt maxDepth 200000 30000
  let store' :=
    match result with
    | .possible d p => setCachedPath store ns nt ⟨some d, some p, .POSSIBLE⟩
    | _ => store
  (result.toR, store')

/-- `findShortestPathExtended(startTitle, targetTitle, maxDepth = 8)`. -/
def findShortestPathExtended (env : Env) (store : Store)
    (startTitle targetTitle : String) (maxDepth : ℕ) : SolverResultR × Store :=
  let ns := normalizeTitle startTitle
  let nt := normalizeTitle targetTitle
  match getCachedPath store ns nt with
  | some cached =>
    if cached.status = .POSSIBLE ∧ cached.path.isSome then
      (⟨.POSSIBLE, cached.distance, cached.distance, cached.path, none⟩, store)
    else findShortestPathExtendedCore env store ns nt maxDepth
  | none => findShortestPathExtendedCore env store ns nt maxDepth

/-- `getDistanceToTarget` forwards to `quickDistanceCheck`. -/
def getDistanceToTarget (env : Env) (store : Store)
    (currentTitle targetTitle : String) : DistanceResult × Store :=
  quickDistanceCheck env store currentTitle targetTitle

/-- `checkFeasibility` forwards to `runSolver`. -/
def checkFeasibility (env : Env) (store : Store) (startTitle targetTitle : String)
    (maxDepth : ℕ) : SolverResultR × Store :=
  runSolver env store startTitle targetTitle maxDepth

/-! ## The pure path-distance helper (game-session module) -/

/-- `getDistanceFromOptimalPath(currentTitle, targetTitle, optimalPath?)`:
pure index arithmetic on a previously computed path; no search, no I/O. -/
def getDistanceFromOptimalPath (currentTitle targetTitle : String)
    (optimalPath : Option (List String)) : Option ℕ :=
  let nc := normalizeTitle currentTitle
  let nt := normalizeTitle targetTitle
  if nc = nt then some 0
  else
    match optimalPath with
    | some p =>
      if 0 < p.length then
        match p.findIdx? (fun title => normalizeTitle title = nc) with
        | some i => some (p.length - 1 - i)
        | none => none
      else none
    | none => none

/-- `x` is a normalized outgoing link of `p` in the fetched graph. -/
def linkOf (env : Env) (p x : String) : Prop :=
  ∃ ls, env.fetch p = some ls ∧ x ∈ ls.map normalizeTitle

/-- Either direction of `linkOf`, with the non-root endpoint unblocked: the
edge relation actually guaranteed for consecutive path elements, subject to
the backward-approximation caveat (the backward search uses the same
outgoing-link fetch). -/
def approxEdge (env : Env) (u v : String) : Prop :=
  (linkOf env u v ∧ isBlockedTitle v = false) ∨
    (linkOf env v u ∧ isBlockedTitle u = false)

/-- Two visited maps have no key in common. -/
def DisjMaps (A B : VMap) : Prop :=
  ∀ x, (aget A x).isSome → (aget B x).isSome → False

inductive GoodMap (env : Env) (root : String) : VMap → Prop
  | base : GoodMap env root [(root, none)]
  | step {m : VMap} {x p : String} :
      GoodMap env root m → aget m x = none → (aget m p).isSome →
      linkOf env p x → isBlockedTitle x = false →
      GoodMap env root (m ++ [(x, some p)])

/-- What the inner neighbour loop guarantees, per outcome. `visited` is the
own-direction map before the loop, `other` the other direction's map. -/
def LinksStepOK (env : Env) (r : String) (other visited : VMap) : LinksStep → Prop
  | .done v' nf' _ =>
      GoodMap env r v' ∧ DisjMaps v' other ∧
      (∀ y, (aget visited y).isSome → aget v' y = aget visited y) ∧
      (∀ x ∈ nf', (aget v' x).isSome)
  | .full v' nf' _ =>
      GoodMap env r v' ∧ DisjMaps v' other ∧
      (∀ y, (aget visited y).isSome → aget v' y = aget visited y) ∧
      (∀ x ∈ nf', (aget v' x).isSome)
  | .meet v' nf' _ L =>
      GoodMap env r v' ∧ (aget other L).isSome ∧ (aget v' L).isSome ∧
      (∀ x, (aget v' x).isSome → (aget other x).isSome → x = L) ∧
      (∀ y, (aget visited y).isSome → aget v' y = aget visited y) ∧
      (∀ x ∈ nf', (aget v' x).isSome)

/-- What `expandFrontier` guarantees: the own visited map stays good and
append-only (existing entries, in particular parent pointers, are never
changed); the next frontier is made of its keys; and the two directions'
maps stay disjoint except, when a meeting is reported, at the meeting node
itself, which is a key of both. -/
def ExpandOK (env : Env) (r : String) (other visited : VMap)
    (res : ExpandResult) : Prop :=
  GoodMap env r res.visited ∧
  (∀ y, (aget visited y).isSome → aget res.visited y = aget visited y) ∧
  (∀ x ∈ res.newFrontier, (aget res.visited x).isSome) ∧
  (match res.meetingPoint with
   | none => DisjMaps res.visited other
   | some L => (aget other L).isSome ∧ (aget res.visited L).isSome ∧
       (∀ x, (aget res.visited x).isSome → (aget other x).isSome → x = L))

/-- What a `POSSIBLE` result of `runBFS env s t _ _ _` guarantees. -/
def PathSpec (env : Env) (s t : String) (dist : ℕ) (p : List String) : Prop :=
  p.head? = some s ∧ p.getLast? = some t ∧ dist = p.length - 1 ∧ p.Nodup ∧
  (∀ y ∈ p, y ≠ s → y ≠ t → isBlockedTitle y = false) ∧
  List.Chain' (approxEdge env) p

/-- Override the fetch result of one node. -/
def withFetch (env : Env) (b : String) (v : Option (List String)) : Env :=
  ⟨fun x => if x = b then v else env.fetch x, env.elapsed⟩

/-! ## Concrete test environments (instantaneous clock, finite graphs) -/

/-- The three-node chain `A→B→C` with `A→C` absent. -/
def envChain : Env :=
  ⟨fun s => if s = "A" then some ["B"] else if s = "B" then some ["C"]
    else if s = "C" then some [] else none, fun _ => 0⟩

/-- `A→B`, `B→{F,G}`: exploring past depth 1 exhausts a node budget of 4. -/
def envBudget : Env :=
  ⟨fun s => if s = "A" then some ["B"] else if s = "B" then some ["F", "G"]
    else if s = "C" then some [] else none, fun _ => 0⟩

/-- Blocked endpoints: `ISBN→{B,D}`, `PMID→{B}`. -/
def envBlocked : Env :=
  ⟨fun s => if s = "ISBN" then some ["B", "D"] else if s = "PMID" then some ["B"]
    else if s = "B" then some [] else if s = "D" then some [] else none,
   fun _ => 0⟩

/-- `A→{B}` with the fetch for `B` always throwing; target `C` has no links. -/
def envFail : Env :=
  ⟨fun s => if s = "A" then some ["B"] else if s = "C" then some [] else none,
   fun _ => 0⟩

/-- The fetch for `B` always throws, but a path `A→D …` to `T` still exists via
the backward frontier. -/
def envFail2 : Env :=
  ⟨fun s => if s = "A" then some ["B", "D"] else if s = "D" then some []
    else if s = "T" then some ["X"] else if s = "X" then some ["D"] else none,
   fun _ => 0⟩

/-! ## Lemmas about association lists -/

theorem aget_eq_none {β : Type} (m : List (String × β)) (k : String) :
    aget m k = none ↔ k ∉ keysOf m := by
  induction m with
  | nil => simp [aget, keysOf]
  | cons hd tl ih =>
    obtain ⟨a, v⟩ := hd
    by_cases h : a = k
    · subst h; simp [aget, keysOf]
    · simp [aget, h, keysOf, ih, Ne.symm h]

theorem aget_isSome_iff {β : Type} (m : List (String × β)) (k : String) :
    (aget m k).isSome ↔ k ∈ keysOf m := by
  rw [Option.isSome_iff_ne_none, ne_eq, aget_eq_none, not_not]

theorem aget_append_left {β : Type} {m1 : List (String × β)} {k : String} {v : β}
    (m2 : List (String × β)) (h : aget m1 k = some v) :
    aget (m1 ++ m2) k = some v := by
  induction m1 with
  | nil => simp [aget] at h
  | cons hd tl ih =>
    obtain ⟨a, w⟩ := hd
    by_cases hak : a = k
    · subst hak; simp_all [aget]
    · simp [aget, hak] at h ⊢; exact ih h

theorem aget_append_right {β : Type} {m1 : List (String × β)} {k : String}
    (m2 : List (String × β)) (h : aget m1 k = none) :
    aget (m1 ++ m2) k = aget m2 k := by
  induction m1 with
  | nil => simp
  | cons hd tl ih =>
    obtain ⟨a, w⟩ := hd
    by_cases hak : a = k
    · subst hak; simp [aget] at h
    · simp [aget, hak] at h ⊢; exact ih h

theorem aget_isSome_append_left {β : Type} {m1 : List (String × β)} {k : String}
    (m2 : List (String × β)) (h : (aget m1 k).isSome) :
    (aget (m1 ++ m2) k).isSome := by
  obtain ⟨v, hv⟩ := Option.isSome_iff_exists.mp h
  rw [aget_append_left m2 hv]; rfl

theorem aset_fresh {β : Type} {m : List (String × β)} {k : String}
    (h : aget m k = none) (v : β) : aset m k v = m ++ [(k, v)] := by
  induction m with
  | nil => simp [aset]
  | cons hd tl ih =>
    obtain ⟨a, w⟩ := hd
    by_cases hak : a = k
    · subst hak; simp [aget] at h
    · simp [aget, hak] at h; simp [aset, hak, ih h]

theorem keysOf_append {β : Type} (m1 m2 : List (String × β)) :
    keysOf (m1 ++ m2) = keysOf m1 ++ keysOf m2 := by
  simp [keysOf]

/-! ## The visited-map invariant

`GoodMap env root m` says the visited map `m` was built the way the search
builds it: the root seeded with parent `null`, then fresh nodes appended, each
with a parent already present, each a normalized outgoing link of its parent,
and each unblocked. -/

theorem gm_root_get {env : Env} {root : String} {m : VMap}
    (h : GoodMap env root m) : aget m root = some none := by
  induction h with
  | base => simp [aget]
  | step hm hfresh hp hl hb ih => exact aget_append_left _ ih

/-- Inversion: every entry of a good map is the root (parent `null`) or a step
whose parent is present, link-justified and unblocked. -/
theorem gm_invert {env : Env} {root : String} {m : VMap}
    (h : GoodMap env root m) :
    ∀ x px, aget m x = some px →
      (x = root ∧ px = none) ∨
      ∃ p, px = some p ∧ (aget m p).isSome ∧ linkOf env p x ∧
        isBlockedTitle x = false := by
  induction h with
  | base =>
    intro x px hx
    by_cases hxr : root = x
    · subst hxr
      simp [aget] at hx
      exact Or.inl ⟨rfl, hx.symm⟩
    · simp [aget, hxr] at hx
  | @step m x0 p0 hm hfresh hp hl hb ih =>
    intro x px hx
    by_cases hxm : (aget m x).isSome
    · obtain ⟨v, hv⟩ := Option.isSome_iff_exists.mp hxm
      rw [aget_append_left _ hv] at hx
      have hvpx : v = px := by injection hx
      subst hvpx
      rcases ih x v hv with h1 | ⟨p, hp1, hp2, hp3, hp4⟩
      · exact Or.inl h1
      · exact Or.inr ⟨p, hp1, aget_isSome_append_left _ hp2, hp3, hp4⟩
    · rw [Option.not_isSome_iff_eq_none] at hxm
      rw [aget_append_right _ hxm] at hx
      by_cases hxx : x0 = x
      · subst hxx
        simp [aget] at hx
        refine Or.inr ⟨p0, hx.symm, aget_isSome_append_left _ hp, hl, hb⟩
      · simp [aget, hxx] at hx

/-- Every key of a good map other than the root is unblocked. -/
theorem gm_key_unblocked {env : Env} {root : String} {m : VMap}
    (h : GoodMap env root m) {x : String} (hx : (aget m x).isSome) :
    x = root ∨ isBlockedTitle x = false := by
  obtain ⟨v, hv⟩ := Option.isSome_iff_exists.mp hx
  rcases gm_invert h x v hv with ⟨h1, _⟩ | ⟨p, _, _, _, h4⟩
  · exact Or.inl h1
  · exact Or.inr h4

/-- A key whose parent is `null` is the root. -/
theorem gm_none_root {env : Env} {root : String} {m : VMap}
    (h : GoodMap env root m) {x : String} (hx : aget m x = some none) :
    x = root := by
  rcases gm_invert h x none hx with ⟨h1, _⟩ | ⟨p, hp1, _⟩
  · exact h1
  · cases hp1

/-- Parents of entries are themselves keys. -/
theorem gm_parents {env : Env} {root : String} {m : VMap}
    (h : GoodMap env root m) {x p : String} (hx : aget m x = some (some p)) :
    (aget m p).isSome := by
  rcases gm_invert h x (some p) hx with ⟨_, h2⟩ | ⟨q, hq1, hq2, _⟩
  · cases h2
  · cases hq1; exact hq2

/-- The keys of a good map are distinct: each node appears in at most one
place of the map. -/
theorem gm_keys_nodup {env : Env} {root : String} {m : VMap}
    (h : GoodMap env root m) : (keysOf m).Nodup := by
  induction h with
  | base => simp [keysOf]
  | @step m x0 p0 hm hfresh hp hl hb ih =>
    rw [keysOf_append]
    simp only [keysOf, List.map_cons, List.map_nil]
    rw [List.nodup_append]
    refine ⟨ih, List.nodup_singleton _, ?_⟩
    intro a ha hb'
    simp at hb'
    rw [hb'] at ha
    exact (aget_eq_none _ _).mp hfresh ha

/-! ## Walk lemmas -/

theorem head_append_ne {α : Type} {l1 : List α} (l2 : List α) (h : l1 ≠ []) :
    (l1 ++ l2).head? = l1.head? := by
  cases l1 with
  | nil => exact absurd rfl h
  | cons a as => rfl

theorem last_append_ne {α : Type} (l1 : List α) {l2 : List α} (h : l2 ≠ []) :
    (l1 ++ l2).getLast? = l2.getLast? := by
  induction l1 with
  | nil => rfl
  | cons a as ih =>
    cases hq : as ++ l2 with
    | nil =>
      rcases List.append_eq_nil.mp hq with ⟨_, h2⟩
      exact absurd h2 h
    | cons b bs =>
      rw [List.cons_append, hq, List.getLast?_cons_cons, ← hq, ih]

/-- Appending a fresh entry does not change a walk that starts at an existing
key of a parent-closed map. -/
theorem walkF_frozen {m : VMap}
    (hclosed : ∀ x p, aget m x = some (some p) → (aget m p).isSome)
    (e : String × Option String) :
    ∀ fuel x, (aget m x).isSome → walkF fuel (m ++ [e]) x = walkF fuel m x := by
  intro fuel
  induction fuel with
  | zero => intro x _; rfl
  | succ f ih =>
    intro x hx
    obtain ⟨v, hv⟩ := Option.isSome_iff_exists.mp hx
    simp only [walkF]
    rw [aget_append_left _ hv, hv]
    cases v with
    | none => rfl
    | some p => simp [ih p (hclosed x p hv)]

theorem walkB_frozen {m : VMap}
    (hclosed : ∀ x p, aget m x = some (some p) → (aget m p).isSome)
    (e : String × Option String) :
    ∀ fuel x, (aget m x).isSome → walkB fuel (m ++ [e]) x = walkB fuel m x := by
  intro fuel
  induction fuel with
  | zero => intro x _; rfl
  | succ f ih =>
    intro x hx
    obtain ⟨v, hv⟩ := Option.isSome_iff_exists.mp hx
    simp only [walkB]
    rw [aget_append_left _ hv, hv]
    cases v with
    | none => rfl
    | some p => simp [ih p (hclosed x p hv)]

/-- Correctness of the forward walk on good maps: it runs from the root to the
queried key, visits distinct keys of the map, and each consecutive pair is a
parent→child link with the child unblocked. -/
theorem walkF_spec {env : Env} {root : String} {m : VMap} (h : GoodMap env root m) :
    ∀ fuel, m.length ≤ fuel → ∀ x, (aget m x).isSome →
      (walkF fuel m x).head? = some root ∧
      (walkF fuel m x).getLast? = some x ∧
      (walkF fuel m x).Nodup ∧
      (∀ y ∈ walkF fuel m x, (aget m y).isSome) ∧
      List.Chain' (fun u v => linkOf env u v ∧ isBlockedTitle v = false)
        (walkF fuel m x) := by
  induction h with
  | base =>
    intro fuel hfuel x hx
    have hxr : root = x := by
      by_cases hr : root = x
      · exact hr
      · simp [aget, hr] at hx
    subst hxr
    cases fuel with
    | zero => simp at hfuel
    | succ f =>
      simp [walkF, aget, Option.join]
  | @step m x0 p0 hm hfresh hp hl hb ih =>
    intro fuel hfuel x hx
    have hclosed : ∀ a b, aget m a = some (some b) → (aget m b).isSome :=
      fun a b hab => gm_parents hm hab
    have hlen : m.length ≤ fuel := by simp at hfuel; omega
    by_cases hxm : (aget m x).isSome
    · rw [walkF_frozen hclosed _ fuel x hxm]
      obtain ⟨h1, h2, h3, h4, h5⟩ := ih fuel hlen x hxm
      exact ⟨h1, h2, h3, fun y hy => aget_isSome_append_left _ (h4 y hy), h5⟩
    · have hxnone : aget m x = none := Option.not_isSome_iff_eq_none.mp hxm
      have hxx : x0 = x := by
        by_cases hq : x0 = x
        · exact hq
        · rw [aget_append_right _ hxnone] at hx
          simp [aget, hq] at hx
      subst hxx
      have hget : aget (m ++ [(x0, some p0)]) x0 = some (some p0) := by
        rw [aget_append_right _ hfresh]; simp [aget]
      cases fuel with
      | zero => simp at hfuel
      | succ f =>
        have hflen : m.length ≤ f := by simp at hfuel; omega
        have hred : walkF (f + 1) (m ++ [(x0, some p0)]) x0 =
            walkF f (m ++ [(x0, some p0)]) p0 ++ [x0] := by
          simp [walkF, hget]
        rw [hred, walkF_frozen hclosed (x0, some p0) f p0 hp]
        obtain ⟨h1, h2, h3, h4, h5⟩ := ih f hflen p0 hp
        have hne : walkF f m p0 ≠ [] := by
          intro he; rw [he] at h1; cases h1
        refine ⟨?_, ?_, ?_, ?_, ?_⟩
        · rw [head_append_ne _ hne]; exact h1
        · rw [last_append_ne _ (by simp)]; rfl
        · rw [List.nodup_append]
          refine ⟨h3, List.nodup_singleton _, ?_⟩
          intro a ha hmem
          simp at hmem
          rw [hmem] at ha
          have := h4 x0 ha
          rw [hfresh] at this
          cases this
        · intro y hy
          rcases List.mem_append.mp hy with hy | hy
          · exact aget_isSome_append_left _ (h4 y hy)
          · simp at hy
            rw [hy, hget]; rfl
        · refine List.Chain'.append h5 (List.chain'_singleton _) ?_
          intro a ha b hbm
          rw [h2] at ha
          simp at ha hbm
          subst ha
          subst hbm
          exact ⟨hl, hb⟩
/-- Correctness of the backward walk on good maps: starting from a non-root
key it runs from that key's parent down to the root, visiting distinct keys
disjoint from the start; consecutive pairs of the start-prepended walk are
child←parent links with the child unblocked. -/
theorem walkB_spec {env : Env} {root : String} {m : VMap} (h : GoodMap env root m) :
    ∀ fuel, m.length ≤ fuel → ∀ x, (aget m x).isSome →
      (x = root → walkB fuel m x = []) ∧
      (x ≠ root →
        walkB fuel m x ≠ [] ∧
        (walkB fuel m x).getLast? = some root ∧
        (x :: walkB fuel m x).Nodup ∧
        (∀ y ∈ walkB fuel m x, (aget m y).isSome) ∧
        List.Chain' (fun u v => linkOf env v u ∧ isBlockedTitle u = false)
          (x :: walkB fuel m x)) := by
  induction h with
  | base =>
    intro fuel hfuel x hx
    have hxr : root = x := by
      by_cases hr : root = x
      · exact hr
      · simp [aget, hr] at hx
    subst hxr
    cases fuel with
    | zero => simp at hfuel
    | succ f =>
      constructor
      · intro _; simp [walkB, aget]
      · intro hc; exact absurd rfl hc
  | @step m x0 p0 hm hfresh hp hl hb ih =>
    intro fuel hfuel x hx
    have hclosed : ∀ a b, aget m a = some (some b) → (aget m b).isSome :=
      fun a b hab => gm_parents hm hab
    have hlen : m.length ≤ fuel := by simp at hfuel; omega
    have hx0root : x0 ≠ root := by
      intro he
      rw [he, gm_root_get hm] at hfresh
      cases hfresh
    by_cases hxm : (aget m x).isSome
    · rw [walkB_frozen hclosed _ fuel x hxm]
      obtain ⟨k1, k2⟩ := ih fuel hlen x hxm
      refine ⟨k1, fun hxr => ?_⟩
      obtain ⟨j1, j2, j3, j4, j5⟩ := k2 hxr
      exact ⟨j1, j2, j3, fun y hy => aget_isSome_append_left _ (j4 y hy), j5⟩
    · have hxnone : aget m x = none := Option.not_isSome_iff_eq_none.mp hxm
      have hxx : x0 = x := by
        by_cases hq : x0 = x
        · exact hq
        · rw [aget_append_right _ hxnone] at hx
          simp [aget, hq] at hx
      subst hxx
      have hget : aget (m ++ [(x0, some p0)]) x0 = some (some p0) := by
        rw [aget_append_right _ hfresh]; simp [aget]
      cases fuel with
      | zero => simp at hfuel
      | succ f =>
        have hflen : m.length ≤ f := by simp at hfuel; omega
        have hred : walkB (f + 1) (m ++ [(x0, some p0)]) x0 =
            p0 :: walkB f (m ++ [(x0, some p0)]) p0 := by
          simp [walkB, hget]
        rw [hred, walkB_frozen hclosed (x0, some p0) f p0 hp]
        refine ⟨fun he => absurd he hx0root, fun _ => ?_⟩
        have hx0keys : x0 ∉ keysOf m := (aget_eq_none m x0).mp hfresh
        by_cases hpr : p0 = root
        · subst hpr
          rw [(ih f hflen p0 hp).1 rfl]
          refine ⟨by simp, by simp, ?_, ?_, ?_⟩
          · simp only [List.nodup_cons, List.mem_singleton, List.nodup_singleton,
              and_true]
            exact ⟨hx0root, by simp, by simp⟩
          · intro y hy
            simp at hy
            rw [hy]
            exact aget_isSome_append_left _ hp
          · rw [List.chain'_cons]
            exact ⟨⟨hl, hb⟩, List.chain'_singleton _⟩
        · obtain ⟨j1, j2, j3, j4, j5⟩ := (ih f hflen p0 hp).2 hpr
          refine ⟨by simp, ?_, ?_, ?_, ?_⟩
          · cases hq : walkB f m p0 with
            | nil => exact absurd hq j1
            | cons b bs => rw [List.getLast?_cons_cons, ← hq]; exact j2
          · rw [List.nodup_cons]
            refine ⟨?_, j3⟩
            intro hmem
            rcases List.mem_cons.mp hmem with he | he
            · rw [he] at hx0keys
              exact hx0keys ((aget_isSome_iff m p0).mp hp)
            · have := j4 x0 he
              exact hx0keys ((aget_isSome_iff m x0).mp this)
          · intro y hy
            rcases List.mem_cons.mp hy with he | he
            · rw [he]; exact aget_isSome_append_left _ hp
            · exact aget_isSome_append_left _ (j4 y he)
          · rw [List.chain'_cons]
            exact ⟨⟨hl, hb⟩, j5⟩

/-- Correctness of `reconstructPath` at a meeting point of two good maps that
share exactly that point: the result runs from the forward root to the
backward root, repeats no node, every interior node is unblocked, and
consecutive nodes are linked (in one direction or the other). -/
theorem reconstruct_spec {env : Env} {s t L : String} {F B : VMap}
    (hF : GoodMap env s F) (hB : GoodMap env t B)
    (hdisj : ∀ x, (aget F x).isSome → (aget B x).isSome → x = L)
    (hLF : (aget F L).isSome) (hLB : (aget B L).isSome) :
    (reconstructPath L F B).head? = some s ∧
    (reconstructPath L F B).getLast? = some t ∧
    (reconstructPath L F B).Nodup ∧
    (∀ y ∈ reconstructPath L F B, y ≠ s → y ≠ t → isBlockedTitle y = false) ∧
    List.Chain' (approxEdge env) (reconstructPath L F B) := by
  obtain ⟨hf1, hf2, hf3, hf4, hf5⟩ :=
    walkF_spec hF (F.length + 1) (Nat.le_succ _) L hLF
  have hfne : walkF (F.length + 1) F L ≠ [] := by
    intro he; rw [he] at hf1; cases hf1
  obtain ⟨hb1, hb2⟩ := walkB_spec hB (B.length + 1) (Nat.le_succ _) L hLB
  unfold reconstructPath
  by_cases hLt : L = t
  · rw [hb1 hLt, List.append_nil]
    refine ⟨hf1, by rw [hf2, hLt], hf3, ?_, ?_⟩
    · intro y hy hys _
      rcases gm_key_unblocked hF (hf4 y hy) with he | he
      · exact absurd he hys
      · exact he
    · exact hf5.imp (fun a b hab => Or.inl hab)
  · obtain ⟨j1, j2, j3, j4, j5⟩ := hb2 hLt
    refine ⟨?_, ?_, ?_, ?_, ?_⟩
    · rw [head_append_ne _ hfne]; exact hf1
    · rw [last_append_ne _ j1]; exact j2
    · rw [List.nodup_append]
      refine ⟨hf3, (List.nodup_cons.mp j3).2, ?_⟩
      intro a ha hamem
      have haF := hf4 a ha
      have haB := j4 a hamem
      have : a = L := hdisj a haF haB
      rw [this] at hamem
      exact (List.nodup_cons.mp j3).1 hamem
    · intro y hy hys hyt
      rcases List.mem_append.mp hy with hy | hy
      · rcases gm_key_unblocked hF (hf4 y hy) with he | he
        · exact absurd he hys
        · exact he
      · rcases gm_key_unblocked hB (j4 y hy) with he | he
        · exact absurd he hyt
        · exact he
    · refine List.Chain'.append (hf5.imp (fun a b hab => Or.inl hab)) ?_ ?_
      · have := j5.tail
        simpa using this.imp (fun a b hab => Or.inr hab)
      · intro a ha b hbm
        rw [hf2] at ha
        simp at ha
        subst ha
        cases hq : walkB (B.length + 1) B L with
        | nil => exact absurd hq j1
        | cons c cs =>
          rw [hq] at hbm j5
          simp at hbm
          subst hbm
          exact Or.inr (List.chain'_cons.mp j5).1

/-! ## Invariant preservation through frontier expansion -/

theorem expandLinks_inv {env : Env} {r node : String} {other : VMap} {maxNodes : ℕ} :
    ∀ links (visited : VMap) nf tv,
      GoodMap env r visited →
      DisjMaps visited other →
      (aget visited node).isSome →
      (∀ l ∈ links, linkOf env node (normalizeTitle l)) →
      (∀ x ∈ nf, (aget visited x).isSome) →
      LinksStepOK env r other visited
        (expandLinks node other maxNodes links visited nf tv) := by
  intro links
  induction links with
  | nil =>
    intro visited nf tv hgm hdisj hnode hlinks hnf
    exact ⟨hgm, hdisj, fun y _ => rfl, hnf⟩
  | cons link rest ih =>
    intro visited nf tv hgm hdisj hnode hlinks hnf
    rw [expandLinks]
    by_cases hbl : isBlockedTitle (normalizeTitle link) = true
    · simp only [hbl, if_true]
      exact ih visited nf tv hgm hdisj hnode (fun l hl => hlinks l (by simp [hl])) hnf
    · have hbl' : isBlockedTitle (normalizeTitle link) = false :=
        Bool.not_eq_true _ ▸ (by simpa using hbl)
      simp only [hbl', Bool.false_eq_true, if_false]
      by_cases hoth : (aget other (normalizeTitle link)).isSome
      · simp only [hoth, if_true]
        -- the meeting case
        have hfresh : aget visited (normalizeTitle link) = none := by
          by_cases hv : (aget visited (normalizeTitle link)).isSome
          · exact absurd hoth (by intro hc; exact hdisj _ hv hc)
          · exact Option.not_isSome_iff_eq_none.mp hv
        rw [aset_fresh hfresh]
        have hgm' : GoodMap env r (visited ++ [(normalizeTitle link, some node)]) :=
          GoodMap.step hgm hfresh hnode (hlinks link (by simp)) hbl'
        refine ⟨hgm', hoth, ?_, ?_, ?_, ?_⟩
        · rw [aget_append_right _ hfresh]; simp [aget]
        · intro x hx hxo
          by_cases hxv : (aget visited x).isSome
          · exact absurd hxo (by intro hc; exact hdisj _ hxv hc)
          · have hxn : aget visited x = none := Option.not_isSome_iff_eq_none.mp hxv
            rw [aget_append_right _ hxn] at hx
            by_cases hq : normalizeTitle link = x
            · exact hq.symm
            · simp [aget, hq] at hx
        · intro y hy
          obtain ⟨w, hw⟩ := Option.isSome_iff_exists.mp hy
          rw [aget_append_left _ hw, hw]
        · intro x hx
          exact aget_isSome_append_left _ (hnf x hx)
      · simp only [hoth, Bool.false_eq_true, if_false]
        by_cases hvis : (aget visited (normalizeTitle link)).isSome
        · simp only [hvis, if_true]
          exact ih visited nf tv hgm hdisj hnode (fun l hl => hlinks l (by simp [hl])) hnf
        · simp only [hvis, Bool.false_eq_true, if_false]
          have hfresh : aget visited (normalizeTitle link) = none :=
            Option.not_isSome_iff_eq_none.mp hvis
          have hgm' : GoodMap env r (visited ++ [(normalizeTitle link, some node)]) :=
            GoodMap.step hgm hfresh hnode (hlinks link (by simp)) hbl'
          have hdisj' : DisjMaps (visited ++ [(normalizeTitle link, some node)]) other := by
            intro x hx hxo
            by_cases hxv : (aget visited x).isSome
            · exact hdisj _ hxv hxo
            · have hxn : aget visited x = none := Option.not_isSome_iff_eq_none.mp hxv
              rw [aget_append_right _ hxn] at hx
              by_cases hq : normalizeTitle link = x
              · rw [← hq] at hxo; exact hoth hxo
              · simp [aget, hq] at hx
          have hpres : ∀ y, (aget visited y).isSome →
              aget (visited ++ [(normalizeTitle link, some node)]) y = aget visited y := by
            intro y hy
            obtain ⟨w, hw⟩ := Option.isSome_iff_exists.mp hy
            rw [aget_append_left _ hw, hw]
          have hnf' : ∀ x ∈ sadd nf (normalizeTitle link),
              (aget (visited ++ [(normalizeTitle link, some node)]) x).isSome := by
            intro x hx
            unfold sadd at hx
            by_cases hc : nf.contains (normalizeTitle link)
            · simp only [hc, if_true] at hx
              exact aget_isSome_append_left _ (hnf x hx)
            · simp only [hc, Bool.false_eq_true, if_false] at hx
              rcases List.mem_append.mp hx with hx | hx
              · exact aget_isSome_append_left _ (hnf x hx)
              · simp at hx
                rw [hx, aget_append_right _ hfresh]
                simp [aget]
          rw [aset_fresh hfresh]
          by_cases hbudget : maxNodes ≤ tv + 1
          · simp only [hbudget, if_true]
            exact ⟨hgm', hdisj', hpres, hnf'⟩
          · simp only [hbudget, if_false]
            have hres := ih (visited ++ [(normalizeTitle link, some node)])
              (sadd nf (normalizeTitle link)) (tv + 1) hgm' hdisj'
              (aget_isSome_append_left _ hnode)
              (fun l hl => hlinks l (by simp [hl])) hnf'
            -- compose the preservation maps
            cases hq : expandLinks node other maxNodes rest
                (visited ++ [(normalizeTitle link, some node)])
                (sadd nf (normalizeTitle link)) (tv + 1) with
            | done v' nf' tv' =>
              rw [hq] at hres
              obtain ⟨q1, q2, q3, q4⟩ := hres
              exact ⟨q1, q2, fun y hy => (q3 y (by rw [hpres y hy]; exact hy)).trans (hpres y hy), q4⟩
            | full v' nf' tv' =>
              rw [hq] at hres
              obtain ⟨q1, q2, q3, q4⟩ := hres
              exact ⟨q1, q2, fun y hy => (q3 y (by rw [hpres y hy]; exact hy)).trans (hpres y hy), q4⟩
            | meet v' nf' tv' L =>
              rw [hq] at hres
              obtain ⟨q1, q2, q3, q4, q5, q6⟩ := hres
              exact ⟨q1, q2, q3, q4,
                fun y hy => (q5 y (by rw [hpres y hy]; exact hy)).trans (hpres y hy), q6⟩

theorem expandFrontier_inv {env : Env} {r : String} {other : VMap} {T N : ℕ} :
    ∀ frontier (visited : VMap) tv nf k,
      GoodMap env r visited →
      DisjMaps visited other →
      (∀ x ∈ frontier, (aget visited x).isSome) →
      (∀ x ∈ nf, (aget visited x).isSome) →
      ExpandOK env r other visited
        (expandFrontier env other T N frontier visited tv nf k) := by
  intro frontier
  induction frontier with
  | nil =>
    intro visited tv nf k hgm hdisj _ hnf
    exact ⟨hgm, fun y _ => rfl, hnf, hdisj⟩
  | cons node rest ih =>
    intro visited tv nf k hgm hdisj hfr hnf
    rw [expandFrontier]
    by_cases h1 : T < env.elapsed k
    · rw [if_pos h1]
      exact ⟨hgm, fun y _ => rfl, hnf, hdisj⟩
    rw [if_neg h1]
    by_cases h2 : N ≤ tv
    · rw [if_pos h2]
      exact ⟨hgm, fun y _ => rfl, hnf, hdisj⟩
    rw [if_neg h2]
    cases hfetch : env.fetch node with
    | none =>
      exact ih visited tv nf (k + 1) hgm hdisj
        (fun x hx => hfr x (by simp [hx])) hnf
    | some links =>
      have hnode : (aget visited node).isSome := hfr node (by simp)
      have hlinks : ∀ l ∈ links, linkOf env node (normalizeTitle l) :=
        fun l hl => ⟨links, hfetch, List.mem_map_of_mem _ hl⟩
      have hres := @expandLinks_inv env r node other N links visited nf tv
        hgm hdisj hnode hlinks hnf
      cases hq : expandLinks node other N links visited nf tv with
      | meet v' nf' tv' L =>
        rw [hq] at hres
        simp only [hq]
        obtain ⟨q1, q2, q3, q4, q5, q6⟩ := hres
        exact ⟨q1, q5, q6, q2, q3, q4⟩
      | full v' nf' tv' =>
        rw [hq] at hres
        simp only [hq]
        obtain ⟨q1, q2, q3, q4⟩ := hres
        exact ⟨q1, q3, q4, q2⟩
      | done v' nf' tv' =>
        rw [hq] at hres
        simp only [hq]
        obtain ⟨q1, q2, q3, q4⟩ := hres
        have hok := ih v' tv' nf' (k + 1) q1 q2
          (fun x hx => by
            have hvx := hfr x (List.mem_cons_of_mem _ hx)
            rw [q3 x hvx]
            exact hvx) q4
        obtain ⟨w1, w2, w3, w4⟩ := hok
        refine ⟨w1, ?_, w3, w4⟩
        intro y hy
        rw [w2 y (by rw [q3 y hy]; exact hy), q3 y hy]

/-! ## Shape of every successful search result -/

theorem bfsLoop_possible {env : Env} {s t : String} {d N T : ℕ} :
    ∀ rem fwdF bwdF fwdV bwdV tv k dist p,
      GoodMap env s fwdV → GoodMap env t bwdV → DisjMaps fwdV bwdV →
      (∀ x ∈ fwdF, (aget fwdV x).isSome) → (∀ x ∈ bwdF, (aget bwdV x).isSome) →
      bfsLoop env d N T rem fwdF bwdF fwdV bwdV tv k = .possible dist p →
      PathSpec env s t dist p := by
  intro rem
  induction rem with
  | zero =>
    intro fwdF bwdF fwdV bwdV tv k dist p _ _ _ _ _ hrun
    rw [bfsLoop] at hrun
    cases hrun
  | succ rem ih =>
    intro fwdF bwdF fwdV bwdV tv k dist p hgF hgB hdisj hfF hfB hrun
    simp only [bfsLoop] at hrun
    by_cases h1 : fwdF.isEmpty || bwdF.isEmpty
    · rw [if_pos h1] at hrun; cases hrun
    rw [if_neg h1] at hrun
    by_cases h2 : T < env.elapsed k
    · rw [if_pos h2] at hrun; cases hrun
    rw [if_neg h2] at hrun
    by_cases h3 : N ≤ tv
    · rw [if_pos h3] at hrun; cases hrun
    rw [if_neg h3] at hrun
    by_cases h4 : fwdF.length ≤ bwdF.length
    · rw [if_pos h4] at hrun
      have hok := @expandFrontier_inv env s bwdV T N
        fwdF fwdV tv [] (k + 1) hgF hdisj hfF (by simp)
      obtain ⟨w1, w2, w3, w4⟩ := hok
      cases hm : (expandFrontier env bwdV T N fwdF fwdV tv [] (k + 1)).meetingPoint with
      | some L =>
        rw [hm] at hrun w4
        simp only at hrun
        obtain ⟨hdist, hpath⟩ : p = reconstructPath L
            (expandFrontier env bwdV T N fwdF fwdV tv [] (k + 1)).visited bwdV ∧
            dist = (reconstructPath L
              (expandFrontier env bwdV T N fwdF fwdV tv [] (k + 1)).visited bwdV).length - 1 := by
          cases hrun
          exact ⟨rfl, rfl⟩
        obtain ⟨m1, m2, m3⟩ := w4
        obtain ⟨r1, r2, r3, r4, r5⟩ := reconstruct_spec w1 hgB m3 m2 m1
        rw [hdist]
        exact ⟨r1, r2, by rw [hpath], r3, r4, r5⟩
      | none =>
        rw [hm] at hrun w4
        by_cases h5 : (expandFrontier env bwdV T N fwdF fwdV tv [] (k + 1)).budgetExceeded
        · simp only [h5, if_true] at hrun
          cases hrun
        · simp only [h5, Bool.false_eq_true, if_false] at hrun
          exact ih _ _ _ _ _ _ _ _ w1 hgB w4 w3 hfB hrun
    · rw [if_neg h4] at hrun
      have hok := @expandFrontier_inv env t fwdV T N
        bwdF bwdV tv [] (k + 1) hgB (fun x ha hb => hdisj x hb ha)
        hfB (by simp)
      obtain ⟨w1, w2, w3, w4⟩ := hok
      cases hm : (expandFrontier env fwdV T N bwdF bwdV tv [] (k + 1)).meetingPoint with
      | some L =>
        rw [hm] at hrun w4
        simp only at hrun
        obtain ⟨hdist, hpath⟩ : p = reconstructPath L fwdV
            (expandFrontier env fwdV T N bwdF bwdV tv [] (k + 1)).visited ∧
            dist = (reconstructPath L fwdV
              (expandFrontier env fwdV T N bwdF bwdV tv [] (k + 1)).visited).length - 1 := by
          cases hrun
          exact ⟨rfl, rfl⟩
        obtain ⟨m1, m2, m3⟩ := w4
        obtain ⟨r1, r2, r3, r4, r5⟩ := reconstruct_spec hgF w1
          (fun x ha hb => m3 x hb ha) m1 m2
        rw [hdist]
        exact ⟨r1, r2, by rw [hpath], r3, r4, r5⟩
      | none =>
        rw [hm] at hrun w4
        by_cases h5 : (expandFrontier env fwdV T N bwdF bwdV tv [] (k + 1)).budgetExceeded
        · simp only [h5, if_true] at hrun
          cases hrun
        · simp only [h5, Bool.false_eq_true, if_false] at hrun
          exact ih _ _ _ _ _ _ _ _ hgF w1 (fun x ha hb => w4 x hb ha) hfF w3 hrun

/-- Every `POSSIBLE` result of `runBFS` satisfies `PathSpec`. -/
theorem runBFS_possible {env : Env} {s t : String} {d N T dist : ℕ}
    {p : List String} (h : runBFS env s t d N T = .possible dist p) :
    PathSpec env s t dist p := by
  unfold runBFS at h
  by_cases hst : s = t
  · rw [if_pos hst] at h
    obtain ⟨hd, hp⟩ : dist = 0 ∧ p = [s] := by cases h; exact ⟨rfl, rfl⟩
    subst hd; subst hp
    refine ⟨rfl, by rw [hst]; rfl, rfl, by simp, ?_, by simp⟩
    intro y hy hys _
    simp at hy
    exact absurd hy hys
  · rw [if_neg hst] at h
    refine bfsLoop_possible d [s] [t] [(s, none)] [(t, none)] 2 0 dist p
      GoodMap.base GoodMap.base ?_ ?_ ?_ h
    · intro x hx1 hx2
      have hxs : s = x := by
        by_cases hq : s = x
        · exact hq
        · simp [aget, hq] at hx1
      have hxt : t = x := by
        by_cases hq : t = x
        · exact hq
        · simp [aget, hq] at hx2
      exact hst (hxs.trans hxt.symm)
    · intro x hx
      simp at hx
      rw [hx]
      simp [aget]
    · intro x hx
      simp at hx
      rw [hx]
      simp [aget]

/-! ## Budget monotonicity -/

/-- The inner neighbour loop is insensitive to a node-budget increase unless
it actually hit the budget. -/
theorem expandLinks_mono {node : String} {other : VMap} {N N' : ℕ} (hN : N ≤ N') :
    ∀ links (visited : VMap) nf tv res,
      expandLinks node other N links visited nf tv = res →
      (∀ v nf' tv', res ≠ .full v nf' tv') →
      expandLinks node other N' links visited nf tv = res := by
  intro links
  induction links with
  | nil =>
    intro visited nf tv res hres _
    rw [expandLinks] at hres ⊢
    exact hres
  | cons link rest ih =>
    intro visited nf tv res hres hnb
    rw [expandLinks] at hres ⊢
    by_cases hbl : isBlockedTitle (normalizeTitle link) = true
    · simp only [hbl, if_true] at hres ⊢
      exact ih visited nf tv res hres hnb
    · have hbl' : isBlockedTitle (normalizeTitle link) = false := by
        simpa using hbl
      simp only [hbl', Bool.false_eq_true, if_false] at hres ⊢
      by_cases hoth : (aget other (normalizeTitle link)).isSome
      · simp only [hoth, if_true] at hres ⊢
        exact hres
      · simp only [hoth, Bool.false_eq_true, if_false] at hres ⊢
        by_cases hvis : (aget visited (normalizeTitle link)).isSome
        · simp only [hvis, if_true] at hres ⊢
          exact ih visited nf tv res hres hnb
        · simp only [hvis, Bool.false_eq_true, if_false] at hres ⊢
          by_cases hb1 : N ≤ tv + 1
          · simp only [hb1, if_true] at hres
            exact (hnb _ _ _ hres.symm).elim
          · simp only [hb1, if_false] at hres
            have hb2 : ¬ N' ≤ tv + 1 := by omega
            simp only [hb2, if_false]
            exact ih _ _ _ res hres hnb

/-- A reported meeting never comes with the budget-exceeded flag. -/
theorem expandFrontier_meet_not_exceeded {env : Env} {other : VMap} {T N : ℕ} :
    ∀ frontier (visited : VMap) tv nf k L,
      (expandFrontier env other T N frontier visited tv nf k).meetingPoint = some L →
      (expandFrontier env other T N frontier visited tv nf k).budgetExceeded = false := by
  intro frontier
  induction frontier with
  | nil => intro visited tv nf k L hm; cases hm
  | cons node rest ih =>
    intro visited tv nf k L hm
    rw [expandFrontier] at hm ⊢
    by_cases h1 : T < env.elapsed k
    · rw [if_pos h1] at hm; cases hm
    rw [if_neg h1] at hm ⊢
    by_cases h2 : N ≤ tv
    · rw [if_pos h2] at hm; cases hm
    rw [if_neg h2] at hm ⊢
    cases hfetch : env.fetch node with
    | none =>
      simp only [hfetch] at hm ⊢
      exact ih _ _ _ _ L hm
    | some links =>
      simp only [hfetch] at hm ⊢
      cases hq : expandLinks node other N links visited nf tv with
      | meet v' nf' tv' L' => simp only [hq]
      | full v' nf' tv' => simp only [hq] at hm; cases hm
      | done v' nf' tv' =>
        simp only [hq] at hm ⊢
        exact ih _ _ _ _ L hm

/-- `expandFrontier` is insensitive to raising the time and node budgets
unless it actually exceeded a budget. -/
theorem expandFrontier_mono {env : Env} {other : VMap} {T T' N N' : ℕ}
    (hT : T ≤ T') (hN : N ≤ N') :
    ∀ frontier (visited : VMap) tv nf k res,
      expandFrontier env other T N frontier visited tv nf k = res →
      res.budgetExceeded = false →
      expandFrontier env other T' N' frontier visited tv nf k = res := by
  intro frontier
  induction frontier with
  | nil =>
    intro visited tv nf k res hres _
    rw [expandFrontier] at hres ⊢
    exact hres
  | cons node rest ih =>
    intro visited tv nf k res hres hbe
    rw [expandFrontier] at hres ⊢
    by_cases h1 : T < env.elapsed k
    · rw [if_pos h1] at hres; rw [← hres] at hbe; cases hbe
    rw [if_neg h1] at hres
    have h1' : ¬ T' < env.elapsed k := by omega
    rw [if_neg h1']
    by_cases h2 : N ≤ tv
    · rw [if_pos h2] at hres; rw [← hres] at hbe; cases hbe
    rw [if_neg h2] at hres
    have h2' : ¬ N' ≤ tv := by omega
    rw [if_neg h2']
    cases hfetch : env.fetch node with
    | none =>
      simp only [hfetch] at hres ⊢
      exact ih _ _ _ _ res hres hbe
    | some links =>
      simp only [hfetch] at hres ⊢
      cases hq : expandLinks node other N links visited nf tv with
      | meet v' nf' tv' L' =>
        rw [expandLinks_mono hN links visited nf tv _ hq (by intro v a b hc; cases hc)]
        simp only [hq] at hres
        exact hres
      | full v' nf' tv' =>
        simp only [hq] at hres
        rw [← hres] at hbe; cases hbe
      | done v' nf' tv' =>
        rw [expandLinks_mono hN links visited nf tv _ hq (by intro v a b hc; cases hc)]
        simp only [hq] at hres
        exact ih _ _ _ _ res hres hbe

/-- A `POSSIBLE` loop outcome is preserved, with the same distance and path,
by raising any of the three budgets (depth, nodes, time). -/
theorem bfsLoop_mono_possible {env : Env} {d d' N N' T T' : ℕ}
    (hN : N ≤ N') (hT : T ≤ T') :
    ∀ rem rem', rem ≤ rem' →
    ∀ fwdF bwdF fwdV bwdV tv k dist p,
      bfsLoop env d N T rem fwdF bwdF fwdV bwdV tv k = .possible dist p →
      bfsLoop env d' N' T' rem' fwdF bwdF fwdV bwdV tv k = .possible dist p := by
  intro rem
  induction rem with
  | zero =>
    intro rem' _ fwdF bwdF fwdV bwdV tv k dist p hrun
    rw [bfsLoop] at hrun
    cases hrun
  | succ rem ih =>
    intro rem' hrem fwdF bwdF fwdV bwdV tv k dist p hrun
    cases rem' with
    | zero => omega
    | succ rem2 =>
      simp only [bfsLoop] at hrun ⊢
      by_cases h1 : fwdF.isEmpty || bwdF.isEmpty
      · rw [if_pos h1] at hrun; cases hrun
      rw [if_neg h1] at hrun
      rw [if_neg h1]
      by_cases h2 : T < env.elapsed k
      · rw [if_pos h2] at hrun; cases hrun
      rw [if_neg h2] at hrun
      have h2' : ¬ T' < env.elapsed k := by omega
      rw [if_neg h2']
      by_cases h3 : N ≤ tv
      · rw [if_pos h3] at hrun; cases hrun
      rw [if_neg h3] at hrun
      have h3' : ¬ N' ≤ tv := by omega
      rw [if_neg h3']
      by_cases h4 : fwdF.length ≤ bwdF.length
      · rw [if_pos h4] at hrun
        rw [if_pos h4]
        cases hm : (expandFrontier env bwdV T N fwdF fwdV tv [] (k + 1)).meetingPoint with
        | some L =>
          have hbe := expandFrontier_meet_not_exceeded fwdF fwdV tv [] (k + 1) L hm
          have heq := expandFrontier_mono hT hN fwdF fwdV tv [] (k + 1) _ rfl hbe
          rw [heq, hm]
          rw [hm] at hrun
          exact hrun
        | none =>
          rw [hm] at hrun
          by_cases h5 : (expandFrontier env bwdV T N fwdF fwdV tv [] (k + 1)).budgetExceeded
          · simp only [h5, if_true] at hrun; cases hrun
          · simp only [h5, Bool.false_eq_true, if_false] at hrun
            have heq := expandFrontier_mono hT hN fwdF fwdV tv [] (k + 1) _ rfl
              (by simpa using h5)
            rw [heq, hm]
            simp only [h5, Bool.false_eq_true, if_false]
            exact ih rem2 (by omega) _ _ _ _ _ _ _ _ hrun
      · rw [if_neg h4] at hrun
        rw [if_neg h4]
        cases hm : (expandFrontier env fwdV T N bwdF bwdV tv [] (k + 1)).meetingPoint with
        | some L =>
          have hbe := expandFrontier_meet_not_exceeded bwdF bwdV tv [] (k + 1) L hm
          have heq := expandFrontier_mono hT hN bwdF bwdV tv [] (k + 1) _ rfl hbe
          rw [heq, hm]
          rw [hm] at hrun
          exact hrun
        | none =>
          rw [hm] at hrun
          by_cases h5 : (expandFrontier env fwdV T N bwdF bwdV tv [] (k + 1)).budgetExceeded
          · simp only [h5, if_true] at hrun; cases hrun
          · simp only [h5, Bool.false_eq_true, if_false] at hrun
            have heq := expandFrontier_mono hT hN bwdF bwdV tv [] (k + 1) _ rfl
              (by simpa using h5)
            rw [heq, hm]
            simp only [h5, Bool.false_eq_true, if_false]
            exact ih rem2 (by omega) _ _ _ _ _ _ _ _ hrun

/-- A `NOT_POSSIBLE` loop outcome is preserved, with the same reason, by
raising the node and time budgets while the depth stays fixed. -/
theorem bfsLoop_mono_notPossible {env : Env} {d N N' T T' : ℕ}
    (hN : N ≤ N') (hT : T ≤ T') :
    ∀ rem fwdF bwdF fwdV bwdV tv k reason,
      bfsLoop env d N T rem fwdF bwdF fwdV bwdV tv k = .notPossible reason →
      bfsLoop env d N' T' rem fwdF bwdF fwdV bwdV tv k = .notPossible reason := by
  intro rem
  induction rem with
  | zero =>
    intro fwdF bwdF fwdV bwdV tv k reason hrun
    rw [bfsLoop] at hrun ⊢
    exact hrun
  | succ rem ih =>
    intro fwdF bwdF fwdV bwdV tv k reason hrun
    simp only [bfsLoop] at hrun ⊢
    by_cases h1 : fwdF.isEmpty || bwdF.isEmpty
    · rw [if_pos h1] at hrun ⊢; exact hrun
    rw [if_neg h1] at hrun
    rw [if_neg h1]
    by_cases h2 : T < env.elapsed k
    · rw [if_pos h2] at hrun; cases hrun
    rw [if_neg h2] at hrun
    have h2' : ¬ T' < env.elapsed k := by omega
    rw [if_neg h2']
    by_cases h3 : N ≤ tv
    · rw [if_pos h3] at hrun; cases hrun
    rw [if_neg h3] at hrun
    have h3' : ¬ N' ≤ tv := by omega
    rw [if_neg h3']
    by_cases h4 : fwdF.length ≤ bwdF.length
    · rw [if_pos h4] at hrun
      rw [if_pos h4]
      cases hm : (expandFrontier env bwdV T N fwdF fwdV tv [] (k + 1)).meetingPoint with
      | some L =>
        rw [hm] at hrun
        cases hrun
      | none =>
        rw [hm] at hrun
        by_cases h5 : (expandFrontier env bwdV T N fwdF fwdV tv [] (k + 1)).budgetExceeded
        · simp only [h5, if_true] at hrun; cases hrun
        · simp only [h5, Bool.false_eq_true, if_false] at hrun
          have heq := expandFrontier_mono hT hN fwdF fwdV tv [] (k + 1) _ rfl
            (by simpa using h5)
          rw [heq, hm]
          simp only [h5, Bool.false_eq_true, if_false]
          exact ih _ _ _ _ _ _ _ hrun
    · rw [if_neg h4] at hrun
      rw [if_neg h4]
      cases hm : (expandFrontier env fwdV T N bwdF bwdV tv [] (k + 1)).meetingPoint with
      | some L =>
        rw [hm] at hrun
        cases hrun
      | none =>
        rw [hm] at hrun
        by_cases h5 : (expandFrontier env fwdV T N bwdF bwdV tv [] (k + 1)).budgetExceeded
        · simp only [h5, if_true] at hrun; cases hrun
        · simp only [h5, Bool.false_eq_true, if_false] at hrun
          have heq := expandFrontier_mono hT hN bwdF bwdV tv [] (k + 1) _ rfl
            (by simpa using h5)
          rw [heq, hm]
          simp only [h5, Bool.false_eq_true, if_false]
          exact ih _ _ _ _ _ _ _ hrun

/-- Raising any combination of the three budgets preserves a `POSSIBLE`
result of `runBFS` exactly. -/
theorem runBFS_mono_possible {env : Env} {s t : String} {d d' N N' T T' : ℕ}
    (hd : d ≤ d') (hN : N ≤ N') (hT : T ≤ T') {dist : ℕ} {p : List String}
    (h : runBFS env s t d N T = .possible dist p) :
    runBFS env s t d' N' T' = .possible dist p := by
  unfold runBFS at h ⊢
  by_cases hst : s = t
  · rw [if_pos hst] at h ⊢; exact h
  · rw [if_neg hst] at h ⊢
    exact bfsLoop_mono_possible hN hT d d' hd _ _ _ _ _ _ _ _ h

/-- Raising the node and time budgets (depth fixed) preserves a
`NOT_POSSIBLE` result of `runBFS` exactly. -/
theorem runBFS_mono_notPossible {env : Env} {s t : String} {d N N' T T' : ℕ}
    (hN : N ≤ N') (hT : T ≤ T') {reason : String}
    (h : runBFS env s t d N T = .notPossible reason) :
    runBFS env s t d N' T' = .notPossible reason := by
  unfold runBFS at h ⊢
  by_cases hst : s = t
  · rw [if_pos hst] at h; cases h
  · rw [if_neg hst] at h ⊢
    exact bfsLoop_mono_notPossible hN hT d _ _ _ _ _ _ _ h

/-! ## Fetch failures are local: a node whose fetch always throws behaves
exactly like a node with no outgoing links. -/

theorem expandFrontier_failEmpty {env : Env} {b : String} {other : VMap} {T N : ℕ} :
    ∀ frontier (visited : VMap) tv nf k,
      expandFrontier (withFetch env b none) other T N frontier visited tv nf k =
      expandFrontier (withFetch env b (some [])) other T N frontier visited tv nf k := by
  intro frontier
  induction frontier with
  | nil => intro visited tv nf k; rw [expandFrontier, expandFrontier]
  | cons node rest ih =>
    intro visited tv nf k
    rw [expandFrontier, expandFrontier]
    by_cases h1 : T < (withFetch env b none).elapsed k
    · have h1' : T < (withFetch env b (some [])).elapsed k := h1
      rw [if_pos h1, if_pos h1']
    have h1' : ¬ T < (withFetch env b (some [])).elapsed k := h1
    rw [if_neg h1, if_neg h1']
    by_cases h2 : N ≤ tv
    · rw [if_pos h2, if_pos h2]
    rw [if_neg h2, if_neg h2]
    by_cases hnb : node = b
    · have hf1 : (withFetch env b none).fetch node = none := by
        simp [withFetch, hnb]
      have hf2 : (withFetch env b (some [])).fetch node = some [] := by
        simp [withFetch, hnb]
      simp only [hf1, hf2, expandLinks]
      exact ih visited tv nf (k + 1)
    · have hf : (withFetch env b none).fetch node =
          (withFetch env b (some [])).fetch node := by
        simp [withFetch, hnb]
      rw [hf]
      cases hfetch : (withFetch env b (some [])).fetch node with
      | none => simp only; exact ih visited tv nf (k + 1)
      | some links =>
        simp only
        cases hq : expandLinks node other N links visited nf tv with
        | meet v' nf' tv' L => rfl
        | full v' nf' tv' => rfl
        | done v' nf' tv' => exact ih v' tv' nf' (k + 1)

theorem bfsLoop_failEmpty {env : Env} {b : String} {d N T : ℕ} :
    ∀ rem fwdF bwdF fwdV bwdV tv k,
      bfsLoop (withFetch env b none) d N T rem fwdF bwdF fwdV bwdV tv k =
      bfsLoop (withFetch env b (some [])) d N T rem fwdF bwdF fwdV bwdV tv k := by
  intro rem
  induction rem with
  | zero => intro fwdF bwdF fwdV bwdV tv k; rw [bfsLoop, bfsLoop]
  | succ rem ih =>
    intro fwdF bwdF fwdV bwdV tv k
    simp only [bfsLoop]
    by_cases h1 : fwdF.isEmpty || bwdF.isEmpty
    · rw [if_pos h1, if_pos h1]
    rw [if_neg h1, if_neg h1]
    by_cases h2 : T < (withFetch env b none).elapsed k
    · have h2' : T < (withFetch env b (some [])).elapsed k := h2
      rw [if_pos h2, if_pos h2']
    have h2' : ¬ T < (withFetch env b (some [])).elapsed k := h2
    rw [if_neg h2, if_neg h2']
    by_cases h3 : N ≤ tv
    · rw [if_pos h3, if_pos h3]
    rw [if_neg h3, if_neg h3]
    by_cases h4 : fwdF.length ≤ bwdF.length
    · rw [if_pos h4, if_pos h4, expandFrontier_failEmpty fwdF fwdV tv [] (k + 1)]
      cases (expandFrontier (withFetch env b (some [])) bwdV T N fwdF fwdV tv []
          (k + 1)).meetingPoint with
      | some L => rfl
      | none =>
        by_cases h5 : (expandFrontier (withFetch env b (some [])) bwdV T N fwdF fwdV
            tv [] (k + 1)).budgetExceeded
        · simp only [h5, if_true]
        · simp only [h5, Bool.false_eq_true, if_false]
          exact ih _ _ _ _ _ _
    · rw [if_neg h4, if_neg h4, expandFrontier_failEmpty bwdF bwdV tv [] (k + 1)]
      cases (expandFrontier (withFetch env b (some [])) fwdV T N bwdF bwdV tv []
          (k + 1)).meetingPoint with
      | some L => rfl
      | none =>
        by_cases h5 : (expandFrontier (withFetch env b (some [])) fwdV T N bwdF bwdV
            tv [] (k + 1)).budgetExceeded
        · simp only [h5, if_true]
        · simp only [h5, Bool.false_eq_true, if_false]
          exact ih _ _ _ _ _ _

/-- A node whose fetch always throws is handled exactly like a node with an
empty neighbour list: the search skips it and continues, and in particular
always returns an ordinary result. -/
theorem runBFS_failEmpty (env : Env) (b s t : String) (d N T : ℕ) :
    runBFS (withFetch env b none) s t d N T =
    runBFS (withFetch env b (some [])) s t d N T := by
  unfold runBFS
  by_cases hst : s = t
  · rw [if_pos hst, if_pos hst]
  · rw [if_neg hst, if_neg hst]
    exact bfsLoop_failEmpty d _ _ _ _ _ _

/-! ## Cache-write policy lemmas -/

theorem aget_aset_ne {β : Type} (m : List (String × β)) {k k' : String}
    (h : k' ≠ k) (v : β) : aget (aset m k v) k' = aget m k' := by
  induction m with
  | nil =>
    simp only [aset, aget]
    rw [if_neg (fun he => h he.symm)]
  | cons hd tl ih =>
    obtain ⟨a, w⟩ := hd
    by_cases hak : a = k
    · subst hak
      simp only [aset, if_pos rfl, aget]
      rw [if_neg (fun he => h he.symm), if_neg (fun he => h he.symm)]
    · simp only [aset, hak, if_false, aget]
      by_cases hak' : a = k'
      · rw [if_pos hak', if_pos hak']
      · rw [if_neg hak', if_neg hak']
        exact ih

/-- `quickDistanceCheck` never writes the store. -/
theorem quickDistanceCheck_store (env : Env) (store : Store) (c t : String) :
    (quickDistanceCheck env store c t).2 = store := by
  unfold quickDistanceCheck
  cases hg : getCachedPath store (normalizeTitle c) (normalizeTitle t) with
  | none =>
    simp only [hg]
    unfold quickCore
    by_cases hct : normalizeTitle c = normalizeTitle t
    · rw [if_pos hct]
    · rw [if_neg hct]
  | some cached =>
    simp only [hg]
    by_cases hs : cached.status = SolverStatus.POSSIBLE
    · rw [if_pos hs]
    · rw [if_neg hs]
      unfold quickCore
      by_cases hct : normalizeTitle c = normalizeTitle t
      · rw [if_pos hct]
      · rw [if_neg hct]

/-- `runSolver` touches at most its own `(start, target)` cache key. -/
theorem runSolver_frame (env : Env) (store : Store) (s t : String) (d : ℕ)
    (k' : String) (hk : k' ≠ pathCacheKey (normalizeTitle s) (normalizeTitle t)) :
    aget (runSolver env store s t d).2 k' = aget store k' := by
  unfold runSolver
  cases hg : getCachedPath store (normalizeTitle s) (normalizeTitle t) with
  | none =>
    simp only [hg]
    unfold runSolverCore
    cases hr : runBFS env (normalizeTitle s) (normalizeTitle t) d MAX_VISITED_NODES
        MAX_TIME_MS with
    | possible dd pp =>
      simp only [hr, setCachedPath]
      by_cases hb : pathContainsBlockedTitle (some pp) = true
      · rw [if_pos hb]
      · rw [if_neg hb]
        exact aget_aset_ne store hk _
    | notPossible r => simp only [hr]
    | unknown r => simp only [hr]
  | some cached =>
    simp only [hg]
    by_cases hs : cached.status = SolverStatus.POSSIBLE ∧ cached.path.isSome
    · rw [if_pos hs]
    · rw [if_neg hs]
      unfold runSolverCore
      cases hr : runBFS env (normalizeTitle s) (normalizeTitle t) d MAX_VISITED_NODES
          MAX_TIME_MS with
      | possible dd pp =>
        simp only [hr, setCachedPath]
        by_cases hb : pathContainsBlockedTitle (some pp) = true
        · rw [if_pos hb]
        · rw [if_neg hb]
          exact aget_aset_ne store hk _
      | notPossible r => simp only [hr]
      | unknown r => simp only [hr]

/-- `findShortestPathExtended` touches at most its own cache key. -/
theorem findShortestPathExtended_frame (env : Env) (store : Store)
    (s t : String) (d : ℕ) (k' : String)
    (hk : k' ≠ pathCacheKey (normalizeTitle s) (normalizeTitle t)) :
    aget (findShortestPathExtended env store s t d).2 k' = aget store k' := by
  unfold findShortestPathExtended
  cases hg : getCachedPath store (normalizeTitle s) (normalizeTitle t) with
  | none =>
    simp only [hg]
    unfold findShortestPathExtendedCore
    cases hr : runBFS env (normalizeTitle s) (normalizeTitle t) d 200000 30000 with
    | possible dd pp =>
      simp only [hr, setCachedPath]
      by_cases hb : pathContainsBlockedTitle (some pp) = true
      · rw [if_pos hb]
      · rw [if_neg hb]
        exact aget_aset_ne store hk _
    | notPossible r => simp only [hr]
    | unknown r => simp only [hr]
  | some cached =>
    simp only [hg]
    by_cases hs : cached.status = SolverStatus.POSSIBLE ∧ cached.path.isSome
    · rw [if_pos hs]
    · rw [if_neg hs]
      unfold findShortestPathExtendedCore
      cases hr : runBFS env (normalizeTitle s) (normalizeTitle t) d 200000 30000 with
      | possible dd pp =>
        simp only [hr, setCachedPath]
        by_cases hb : pathContainsBlockedTitle (some pp) = true
        · rw [if_pos hb]
        · rw [if_neg hb]
          exact aget_aset_ne store hk _
      | notPossible r => simp only [hr]
      | unknown r => simp only [hr]

/-- Write-characterization of `runSolver`: the store is unchanged unless the
search returned `POSSIBLE` with an unblocked path, in which case exactly that
entry is written. -/
theorem runSolver_writes (env : Env) (store : Store) (s t : String) (d : ℕ) :
    ((runSolver env store s t d).1.status ≠ SolverStatus.POSSIBLE →
      (runSolver env store s t d).2 = store) ∧
    ((runSolver env store s t d).2 = store ∨
      ∃ dd pp,
        runBFS env (normalizeTitle s) (normalizeTitle t) d MAX_VISITED_NODES
          MAX_TIME_MS = .possible dd pp ∧
        pathContainsBlockedTitle (some pp) = false ∧
        (runSolver env store s t d).2 =
          aset store (pathCacheKey (normalizeTitle s) (normalizeTitle t))
            ⟨some dd, some pp, .POSSIBLE⟩) := by
  unfold runSolver runSolverCore
  cases hg : getCachedPath store (normalizeTitle s) (normalizeTitle t) with
  | none =>
    simp only [hg]
    cases hr : runBFS env (normalizeTitle s) (normalizeTitle t) d MAX_VISITED_NODES
        MAX_TIME_MS with
    | possible dd pp =>
      simp only [hr, setCachedPath, SolverResult.toR]
      constructor
      · intro hne
        exact absurd rfl hne
      · by_cases hb : pathContainsBlockedTitle (some pp) = true
        · rw [if_pos hb]; exact Or.inl rfl
        · rw [if_neg hb]
          exact Or.inr ⟨dd, pp, rfl, by simpa using hb, rfl⟩
    | notPossible r => simp [hr, SolverResult.toR]
    | unknown r => simp [hr, SolverResult.toR]
  | some cached =>
    simp only [hg]
    by_cases hs : cached.status = SolverStatus.POSSIBLE ∧ cached.path.isSome
    · rw [if_pos hs]
      exact ⟨fun _ => rfl, Or.inl rfl⟩
    · rw [if_neg hs]
      cases hr : runBFS env (normalizeTitle s) (normalizeTitle t) d MAX_VISITED_NODES
          MAX_TIME_MS with
      | possible dd pp =>
        simp only [hr, setCachedPath, SolverResult.toR]
        constructor
        · intro hne
          exact absurd rfl hne
        · by_cases hb : pathContainsBlockedTitle (some pp) = true
          · rw [if_pos hb]; exact Or.inl rfl
          · rw [if_neg hb]
            exact Or.inr ⟨dd, pp, rfl, by simpa using hb, rfl⟩
      | notPossible r => simp [hr, SolverResult.toR]
      | unknown r => simp [hr, SolverResult.toR]

/-- Write-characterization of `findShortestPathExtended`. -/
theorem findShortestPathExtended_writes (env : Env) (store : Store)
    (s t : String) (d : ℕ) :
    ((findShortestPathExtended env store s t d).1.status ≠ SolverStatus.POSSIBLE →
      (findShortestPathExtended env store s t d).2 = store) ∧
    ((findShortestPathExtended env store s t d).2 = store ∨
      ∃ dd pp,
        runBFS env (normalizeTitle s) (normalizeTitle t) d 200000 30000 =
          .possible dd pp ∧
        pathContainsBlockedTitle (some pp) = false ∧
        (findShortestPathExtended env store s t d).2 =
          aset store (pathCacheKey (normalizeTitle s) (normalizeTitle t))
            ⟨some dd, some pp, .POSSIBLE⟩) := by
  unfold findShortestPathExtended findShortestPathExtendedCore
  cases hg : getCachedPath store (normalizeTitle s) (normalizeTitle t) with
  | none =>
    simp only [hg]
    cases hr : runBFS env (normalizeTitle s) (normalizeTitle t) d 200000 30000 with
    | possible dd pp =>
      simp only [hr, setCachedPath, SolverResult.toR]
      constructor
      · intro hne
        exact absurd rfl hne
      · by_cases hb : pathContainsBlockedTitle (some pp) = true
        · rw [if_pos hb]; exact Or.inl rfl
        · rw [if_neg hb]
          exact Or.inr ⟨dd, pp, rfl, by simpa using hb, rfl⟩
    | notPossible r => simp [hr, SolverResult.toR]
    | unknown r => simp [hr, SolverResult.toR]
  | some cached =>
    simp only [hg]
    by_cases hs : cached.status = SolverStatus.POSSIBLE ∧ cached.path.isSome
    · rw [if_pos hs]
      exact ⟨fun _ => rfl, Or.inl rfl⟩
    · rw [if_neg hs]
      cases hr : runBFS env (normalizeTitle s) (normalizeTitle t) d 200000 30000 with
      | possible dd pp =>
        simp only [hr, setCachedPath, SolverResult.toR]
        constructor
        · intro hne
          exact absurd rfl hne
        · by_cases hb : pathContainsBlockedTitle (some pp) = true
          · rw [if_pos hb]; exact Or.inl rfl
          · rw [if_neg hb]
            exact Or.inr ⟨dd, pp, rfl, by simpa using hb, rfl⟩
      | notPossible r => simp [hr, SolverResult.toR]
      | unknown r => simp [hr, SolverResult.toR]

/-! ## Character-level lemmas for canonicalization -/

theorem char_eq_of_toNat {c d : Char} (h : c.toNat = d.toNat) : c = d :=
  Char.eq_of_val_eq (UInt32.ext h)

theorem toNat_ofNat_valid {m : ℕ} (h : m < 0xd800) : (Char.ofNat m).toNat = m := by
  unfold Char.ofNat
  rw [dif_pos (Or.inl h)]
  rfl

theorem upChar_toNat (c : Char) :
    (upChar c).toNat =
      if 97 ≤ c.toNat ∧ c.toNat ≤ 122 then c.toNat - 32 else c.toNat := by
  unfold upChar
  by_cases h : 97 ≤ c.toNat ∧ c.toNat ≤ 122
  · rw [if_pos h, if_pos h, toNat_ofNat_valid (by omega)]
  · rw [if_neg h, if_neg h]

theorem upChar_idem (c : Char) : upChar (upChar c) = upChar c := by
  apply char_eq_of_toNat
  by_cases h : 97 ≤ c.toNat ∧ c.toNat ≤ 122
  · have h2 : (upChar c).toNat = c.toNat - 32 := by rw [upChar_toNat, if_pos h]
    rw [upChar_toNat, h2, if_neg (by omega)]
  · have h2 : (upChar c).toNat = c.toNat := by rw [upChar_toNat, if_neg h]
    rw [upChar_toNat, h2, if_neg h]

theorem isWs_eq_false_of_toNat (c : Char) (h9 : c.toNat ≠ 9) (h10 : c.toNat ≠ 10)
    (h11 : c.toNat ≠ 11) (h12 : c.toNat ≠ 12) (h13 : c.toNat ≠ 13)
    (h32 : c.toNat ≠ 32) : isWs c = false := by
  unfold isWs
  have e1 : (c = ' ') = False :=
    eq_false (fun he => h32 (congrArg Char.toNat he))
  have e2 : (c = '\t') = False :=
    eq_false (fun he => h9 (congrArg Char.toNat he))
  have e3 : (c = '\n') = False :=
    eq_false (fun he => h10 (congrArg Char.toNat he))
  have e4 : (c = '\r') = False :=
    eq_false (fun he => h13 (congrArg Char.toNat he))
  have e5 : (c = '\x0b') = False :=
    eq_false (fun he => h11 (congrArg Char.toNat he))
  have e6 : (c = '\x0c') = False :=
    eq_false (fun he => h12 (congrArg Char.toNat he))
  simp [e1, e2, e3, e4, e5, e6]

theorem isWs_toNat_true (c : Char) (h : isWs c = true) :
    c.toNat = 32 ∨ c.toNat = 9 ∨ c.toNat = 10 ∨ c.toNat = 13 ∨
      c.toNat = 11 ∨ c.toNat = 12 := by
  unfold isWs at h
  simp only [Bool.or_eq_true, decide_eq_true_eq] at h
  rcases h with ((((h | h) | h) | h) | h) | h <;> subst h <;> decide

theorem isWs_upChar (c : Char) : isWs (upChar c) = isWs c := by
  by_cases h : 97 ≤ c.toNat ∧ c.toNat ≤ 122
  · have h2 : (upChar c).toNat = c.toNat - 32 := by rw [upChar_toNat, if_pos h]
    rw [isWs_eq_false_of_toNat (upChar c) (by omega) (by omega) (by omega)
        (by omega) (by omega) (by omega),
      isWs_eq_false_of_toNat c (by omega) (by omega) (by omega) (by omega)
        (by omega) (by omega)]
  · have h2 : upChar c = c := by unfold upChar; rw [if_neg h]
    rw [h2]

theorem upChar_toNat_ne (c : Char) (m : ℕ) (hm : m < 65 ∨ 90 < m)
    (hc : c.toNat ≠ m) : (upChar c).toNat ≠ m := by
  rw [upChar_toNat]
  by_cases h : 97 ≤ c.toNat ∧ c.toNat ≤ 122
  · rw [if_pos h]; omega
  · rw [if_neg h]; exact hc

theorem upChar_ne (c d : Char) (hm : d.toNat < 65 ∨ 90 < d.toNat)
    (hc : c ≠ d) : upChar c ≠ d := fun he =>
  upChar_toNat_ne c d.toNat hm (fun hn => hc (char_eq_of_toNat hn))
    (congrArg Char.toNat he)

/-! ## Pipeline membership lemmas -/

theorem mem_collapseGo {y : Char} : ∀ (b : Bool) (l : List Char),
    y ∈ collapseGo b l → y = ' ' ∨ y ∈ l := by
  intro b l
  induction l generalizing b with
  | nil => intro h; cases h
  | cons c cs ih =>
    intro h
    rw [collapseGo] at h
    by_cases hws : isWs c = true
    · rw [if_pos hws] at h
      cases b with
      | true =>
        rcases ih true h with h' | h'
        · exact Or.inl h'
        · exact Or.inr (List.mem_cons_of_mem _ h')
      | false =>
        rcases List.mem_cons.mp h with h' | h'
        · exact Or.inl h'
        · rcases ih true h' with h'' | h''
          · exact Or.inl h''
          · exact Or.inr (List.mem_cons_of_mem _ h'')
    · rw [if_neg hws] at h
      rcases List.mem_cons.mp h with h' | h'
      · exact Or.inr (by rw [h']; exact List.mem_cons_self _ _)
      · rcases ih false h' with h'' | h''
        · exact Or.inl h''
        · exact Or.inr (List.mem_cons_of_mem _ h'')

theorem mem_trimBoth {y : Char} {l : List Char} (h : y ∈ trimBoth l) : y ∈ l := by
  unfold trimBoth at h
  rw [List.mem_reverse] at h
  have h1 := (List.dropWhile_sublist _).subset h
  rw [List.mem_reverse] at h1
  exact (List.dropWhile_sublist _).subset h1

theorem mem_underscoresToSpaces {y : Char} {l : List Char}
    (h : y ∈ underscoresToSpaces l) : y = ' ' ∨ y ∈ l := by
  unfold underscoresToSpaces at h
  rcases List.mem_map.mp h with ⟨c, hc, he⟩
  by_cases hu : c = '_'
  · rw [if_pos hu] at he; exact Or.inl he.symm
  · rw [if_neg hu] at he; rw [← he]; exact Or.inr hc

theorem not_hash_mem_preCanon (x : List Char) : '#' ∉ preCanon x := by
  intro hmem
  unfold preCanon at hmem
  rcases mem_underscoresToSpaces hmem with he | hmem2
  · cases he
  · have := List.mem_takeWhile_imp hmem2
    simp at this

theorem not_underscore_mem_preCanon (x : List Char) : '_' ∉ preCanon x := by
  intro hmem
  unfold preCanon at hmem
  unfold underscoresToSpaces at hmem
  rcases List.mem_map.mp hmem with ⟨c, _, he⟩
  by_cases hu : c = '_'
  · rw [if_pos hu] at he; cases he
  · rw [if_neg hu] at he; exact hu (he.symm ▸ rfl)

/-- Characters that survive trimming, collapsing and first-letter uppercasing
either come from the input, are the space character, or are the uppercased
head. -/
theorem mem_canonCore (x : List Char) {y : Char} (h : y ∈ canonCore x) :
    y ∈ preCanon x ∨ y = ' ' ∨
      ∃ c, c ∈ preCanon x ∧ y = upChar c := by
  unfold canonCore at h
  cases hz : collapseWs (trimBoth (preCanon x)) with
  | nil => rw [hz] at h; cases h
  | cons c0 cs0 =>
    rw [hz] at h
    unfold upFirst at h
    have hc0 : c0 = ' ' ∨ c0 ∈ preCanon x := by
      have : c0 ∈ collapseWs (trimBoth (preCanon x)) := by
        rw [hz]; exact List.mem_cons_self _ _
      rcases mem_collapseGo false _ this with he | hm
      · exact Or.inl he
      · exact Or.inr (mem_trimBoth hm)
    rcases List.mem_cons.mp h with he | htl
    · rcases hc0 with hsp | hmm
      · rw [hsp] at he
        -- upChar ' ' = ' '
        right; left
        rw [he]
        unfold upChar
        rw [if_neg (by decide)]
      · exact Or.inr (Or.inr ⟨c0, hmm, he⟩)
    · have : y ∈ collapseWs (trimBoth (preCanon x)) := by
        rw [hz]; exact List.mem_cons_of_mem _ htl
      rcases mem_collapseGo false _ this with he | hm
      · exact Or.inr (Or.inl he)
      · exact Or.inl (mem_trimBoth hm)

theorem not_hash_mem_canonCore (x : List Char) : '#' ∉ canonCore x := by
  intro hmem
  rcases mem_canonCore x hmem with hm | he | ⟨c, hc, he⟩
  · exact not_hash_mem_preCanon x hm
  · cases he
  · exact upChar_ne c '#' (by decide)
      (fun h0 => not_hash_mem_preCanon x (h0 ▸ hc)) he.symm

theorem not_underscore_mem_canonCore (x : List Char) : '_' ∉ canonCore x := by
  intro hmem
  rcases mem_canonCore x hmem with hm | he | ⟨c, hc, he⟩
  · exact not_underscore_mem_preCanon x hm
  · cases he
  · exact upChar_ne c '_' (by decide)
      (fun h0 => not_underscore_mem_preCanon x (h0 ▸ hc)) he.symm

/-! ## Whitespace-shape lemmas for the idempotence proof -/

theorem dropWhile_head_not_ws : ∀ (l : List Char) (c : Char),
    (l.dropWhile isWs).head? = some c → isWs c = false := by
  intro l
  induction l with
  | nil => intro c h; cases h
  | cons a as ih =>
    intro c h
    rw [List.dropWhile_cons] at h
    by_cases hws : isWs a = true
    · rw [if_pos hws] at h
      exact ih c h
    · rw [if_neg hws] at h
      injection h with h
      rw [← h]
      exact Bool.not_eq_true _ ▸ (by simpa using hws)

theorem getLast?_dropWhile (p : Char → Bool) (l : List Char) (c : Char)
    (h : (l.dropWhile p).getLast? = some c) : l.getLast? = some c := by
  have hne : l.dropWhile p ≠ [] := by intro he; rw [he] at h; cases h
  have hd : l.takeWhile p ++ l.dropWhile p = l := List.takeWhile_append_dropWhile p l
  calc l.getLast? = (l.takeWhile p ++ l.dropWhile p).getLast? := by rw [hd]
    _ = (l.dropWhile p).getLast? := last_append_ne _ hne
    _ = some c := h

theorem trimBoth_head (l : List Char) (c : Char)
    (h : (trimBoth l).head? = some c) : isWs c = false := by
  unfold trimBoth at h
  rw [List.head?_reverse] at h
  have h2 := getLast?_dropWhile isWs _ c h
  rw [List.getLast?_reverse] at h2
  exact dropWhile_head_not_ws _ c h2

theorem trimBoth_last (l : List Char) (c : Char)
    (h : (trimBoth l).getLast? = some c) : isWs c = false := by
  unfold trimBoth at h
  rw [List.getLast?_reverse] at h
  exact dropWhile_head_not_ws _ c h

theorem collapseGo_cons_not_ws (b : Bool) (c : Char) (cs : List Char)
    (h : isWs c = false) : collapseGo b (c :: cs) = c :: collapseGo false cs := by
  rw [collapseGo, if_neg (by simp [h])]

theorem getLast?_cons_of_ne_nil {α : Type} (a : α) {l : List α} (h : l ≠ []) :
    (a :: l).getLast? = l.getLast? := by
  cases l with
  | nil => exact absurd rfl h
  | cons b bs => rw [List.getLast?_cons_cons]

theorem collapseGo_getLast : ∀ (l : List Char) (b : Bool) (c : Char),
    l.getLast? = some c → isWs c = false → (collapseGo b l).getLast? = some c := by
  intro l
  induction l with
  | nil => intro b c h; cases h
  | cons a as ih =>
    intro b c h hc
    by_cases has : as = []
    · subst has
      injection h with h
      subst h
      rw [collapseGo_cons_not_ws b a [] hc]
      rfl
    · have h' : as.getLast? = some c := by
        rw [getLast?_cons_of_ne_nil a has] at h
        exact h
      have hne : ∀ b', collapseGo b' as ≠ [] := by
        intro b' he
        have hx := ih b' c h' hc
        rw [he] at hx
        cases hx
      by_cases hws : isWs a = true
      · cases b with
        | false =>
          have e : collapseGo false (a :: as) = ' ' :: collapseGo true as := by
            rw [collapseGo, if_pos hws, if_neg (by decide)]
          rw [e, getLast?_cons_of_ne_nil _ (hne true)]
          exact ih true c h' hc
        | true =>
          have e : collapseGo true (a :: as) = collapseGo true as := by
            rw [collapseGo, if_pos hws, if_pos rfl]
          rw [e]
          exact ih true c h' hc
      · rw [collapseGo_cons_not_ws b a as (by simpa using hws),
          getLast?_cons_of_ne_nil _ (hne false)]
        exact ih false c h' hc

theorem collapseGo_collapseGo : ∀ l : List Char,
    collapseGo false (collapseGo false l) = collapseGo false l ∧
    collapseGo true (collapseGo true l) = collapseGo true l := by
  intro l
  induction l with
  | nil => exact ⟨rfl, rfl⟩
  | cons c cs ih =>
    by_cases hws : isWs c = true
    · have e1 : collapseGo false (c :: cs) = ' ' :: collapseGo true cs := by
        rw [collapseGo, if_pos hws, if_neg (by decide)]
      have e2 : collapseGo true (c :: cs) = collapseGo true cs := by
        rw [collapseGo, if_pos hws, if_pos rfl]
      have e3 : ∀ X, collapseGo false (' ' :: X) = ' ' :: collapseGo true X := by
        intro X
        rw [collapseGo, if_pos (by decide), if_neg (by decide)]
      exact ⟨by rw [e1, e3, ih.2], by rw [e2, ih.2]⟩
    · have hws' : isWs c = false := by simpa using hws
      have e1 : ∀ b, collapseGo b (c :: cs) = c :: collapseGo false cs :=
        fun b => collapseGo_cons_not_ws b c cs hws'
      constructor
      · rw [e1 false, collapseGo_cons_not_ws false c _ hws', ih.1]
      · rw [e1 true, collapseGo_cons_not_ws true c _ hws', ih.1]

theorem dropWhile_eq_self_of_head (l : List Char)
    (h : ∀ c, l.head? = some c → isWs c = false) : l.dropWhile isWs = l := by
  cases l with
  | nil => rfl
  | cons a as =>
    rw [List.dropWhile_cons, if_neg (by simp [h a rfl])]

theorem trimBoth_eq_self (l : List Char)
    (hh : ∀ c, l.head? = some c → isWs c = false)
    (hl : ∀ c, l.getLast? = some c → isWs c = false) : trimBoth l = l := by
  unfold trimBoth
  rw [dropWhile_eq_self_of_head l hh]
  rw [dropWhile_eq_self_of_head l.reverse
    (fun c hc => hl c (by rw [List.head?_reverse] at hc; exact hc))]
  exact List.reverse_reverse l

theorem takeWhile_eq_self_of (p : Char → Bool) : ∀ l : List Char,
    (∀ a ∈ l, p a = true) → l.takeWhile p = l := by
  intro l
  induction l with
  | nil => intro _; rfl
  | cons a as ih =>
    intro h
    rw [List.takeWhile_cons, if_pos (h a (List.mem_cons_self _ _))]
    rw [ih (fun b hb => h b (List.mem_cons_of_mem _ hb))]

theorem map_id_of (f : Char → Char) : ∀ l : List Char,
    (∀ a ∈ l, f a = a) → l.map f = l := by
  intro l
  induction l with
  | nil => intro _; rfl
  | cons a as ih =>
    intro h
    rw [List.map_cons, h a (List.mem_cons_self _ _),
      ih (fun b hb => h b (List.mem_cons_of_mem _ hb))]

theorem decodeLoopGo_no_pct : ∀ (fuel : ℕ), fuel ≠ 0 → ∀ (prev cur : List Char),
    cur.contains '%' = false → decodeLoopGo fuel prev cur = some cur := by
  intro fuel hf prev cur h
  cases fuel with
  | zero => exact absurd rfl hf
  | succ f =>
    rw [decodeLoopGo, if_neg]
    intro hc
    rw [h] at hc
    exact absurd hc.2 (by decide)

theorem getLast?_none {α : Type} : ∀ l : List α, l.getLast? = none → l = [] := by
  intro l
  induction l with
  | nil => intro _; rfl
  | cons a as ih =>
    intro h
    cases has : as with
    | nil => rw [has] at h; cases h
    | cons b bs =>
      rw [has, List.getLast?_cons_cons] at h
      have := ih (has ▸ h)
      rw [has] at this
      cases this

/-- The head and last characters of `collapseWs (trimBoth w)` are never
whitespace. -/
theorem collapse_trim_head (w : List Char) (c : Char)
    (h : (collapseWs (trimBoth w)).head? = some c) : isWs c = false := by
  cases hy : trimBoth w with
  | nil =>
    unfold collapseWs at h
    rw [hy] at h
    cases h
  | cons a as =>
    have ha : isWs a = false := trimBoth_head w a (by rw [hy]; rfl)
    unfold collapseWs at h
    rw [hy, collapseGo_cons_not_ws false a as ha] at h
    injection h with h
    rw [← h]
    exact ha

theorem collapse_trim_last (w : List Char) (c : Char)
    (h : (collapseWs (trimBoth w)).getLast? = some c) : isWs c = false := by
  cases hy : (trimBoth w).getLast? with
  | none =>
    have : trimBoth w = [] := getLast?_none (trimBoth w) hy
    unfold collapseWs at h
    rw [this] at h
    cases h
  | some d =>
    have hd : isWs d = false := trimBoth_last w d hy
    have := collapseGo_getLast (trimBoth w) false d hy hd
    unfold collapseWs at h
    rw [this] at h
    injection h with h
    rw [← h]
    exact hd

/-- Conditional idempotence of the canonicalization body: a second pass is the
identity whenever the first pass's output contains no `%` and does not start
with one of the three strippable route markers. -/
theorem canonCore_idem (x : List Char)
    (h1 : (canonCore x).contains '%' = false)
    (h2 : List.isPrefixOf "/wiki/".data (canonCore x) = false)
    (h3 : List.isPrefixOf "./".data (canonCore x) = false)
    (h4 : List.isPrefixOf "wiki/".data (canonCore x) = false) :
    canonCore (canonCore x) = canonCore x := by
  have hdec : decodeLoopGo ((canonCore x).length + 2) [] (canonCore x) =
      some (canonCore x) :=
    decodeLoopGo_no_pct _ (by omega) [] _ h1
  have hstrip : stripPre (canonCore x) = canonCore x := by
    unfold stripPre
    rw [if_neg (fun hc => absurd (h2 ▸ hc) (by decide)),
      if_neg (fun hc => absurd (h3 ▸ hc) (by decide)),
      if_neg (fun hc => absurd (h4 ▸ hc) (by decide))]
  have hhash : cutHash (canonCore x) = canonCore x := by
    apply takeWhile_eq_self_of
    intro a ha
    simp only [ne_eq, decide_eq_true_eq]
    intro he
    exact not_hash_mem_canonCore x (he ▸ ha)
  have hund : underscoresToSpaces (canonCore x) = canonCore x := by
    apply map_id_of
    intro a ha
    rw [if_neg (fun he : a = '_' => not_underscore_mem_canonCore x (he ▸ ha))]
  have hpre : preCanon (canonCore x) = canonCore x := by
    unfold preCanon
    simp only [hdec]
    rw [hstrip, hhash, hund]
  have hyhead : ∀ c, (canonCore x).head? = some c → isWs c = false := by
    intro c hcy
    unfold canonCore at hcy
    cases hz : collapseWs (trimBoth (preCanon x)) with
    | nil => rw [hz] at hcy; cases hcy
    | cons a as =>
      rw [hz] at hcy
      unfold upFirst at hcy
      injection hcy with hcy
      have ha : isWs a = false := collapse_trim_head (preCanon x) a (by rw [hz]; rfl)
      rw [← hcy, isWs_upChar]
      exact ha
  have hylast : ∀ c, (canonCore x).getLast? = some c → isWs c = false := by
    intro c hcy
    unfold canonCore at hcy
    cases hz : collapseWs (trimBoth (preCanon x)) with
    | nil => rw [hz] at hcy; cases hcy
    | cons a as =>
      rw [hz] at hcy
      unfold upFirst at hcy
      by_cases has : as = []
      · subst has
        have hcy2 : upChar a = c := by
          have : ([upChar a] : List Char).getLast? = some (upChar a) := rfl
          rw [this] at hcy
          injection hcy
        have ha : isWs a = false := collapse_trim_head (preCanon x) a (by rw [hz]; rfl)
        rw [← hcy2, isWs_upChar]
        exact ha
      · rw [getLast?_cons_of_ne_nil _ has] at hcy
        refine collapse_trim_last (preCanon x) c ?_
        rw [hz, getLast?_cons_of_ne_nil _ has]
        exact hcy
  have htrim : trimBoth (canonCore x) = canonCore x :=
    trimBoth_eq_self _ hyhead hylast
  have hcollapse : collapseWs (canonCore x) = canonCore x := by
    unfold canonCore
    cases hz : collapseWs (trimBoth (preCanon x)) with
    | nil => rfl
    | cons a as =>
      have ha : isWs a = false := collapse_trim_head (preCanon x) a (by rw [hz]; rfl)
      have hidem := (collapseGo_collapseGo (trimBoth (preCanon x))).1
      unfold collapseWs at hz
      rw [hz, collapseGo_cons_not_ws false a as ha] at hidem
      have htail : collapseGo false as = as := by injection hidem
      show collapseGo false (upChar a :: as) = upChar a :: as
      rw [collapseGo_cons_not_ws false (upChar a) as (by rw [isWs_upChar]; exact ha),
        htail]
  have hup : upFirst (canonCore x) = canonCore x := by
    unfold canonCore
    cases hz : collapseWs (trimBoth (preCanon x)) with
    | nil => rfl
    | cons a as =>
      show upChar (upChar a) :: as = upChar a :: as
      rw [upChar_idem]
  calc canonCore (canonCore x)
      = upFirst (collapseWs (trimBoth (preCanon (canonCore x)))) := rfl
    _ = upFirst (collapseWs (trimBoth (canonCore x))) := by rw [hpre]
    _ = upFirst (collapseWs (canonCore x)) := by rw [htrim]
    _ = upFirst (canonCore x) := by rw [hcollapse]
    _ = canonCore x := hup

theorem canonicalTitleS_eq (t : String) :
    canonicalTitleS t = if t = "" then "" else String.mk (canonCore t.data) := rfl

/-- String-level conditional idempotence of `canonicalTitle`. -/
theorem canonicalTitleS_idem (s : String)
    (h1 : (canonicalTitleS s).data.contains '%' = false)
    (h2 : List.isPrefixOf "/wiki/".data (canonicalTitleS s).data = false)
    (h3 : List.isPrefixOf "./".data (canonicalTitleS s).data = false)
    (h4 : List.isPrefixOf "wiki/".data (canonicalTitleS s).data = false) :
    canonicalTitleS (canonicalTitleS s) = canonicalTitleS s := by
  by_cases hs : s = ""
  · subst hs; rfl
  · have ht : canonicalTitleS s = String.mk (canonCore s.data) := by
      rw [canonicalTitleS_eq, if_neg hs]
    by_cases htz : canonicalTitleS s = ""
    · rw [htz]; rfl
    · rw [canonicalTitleS_eq (canonicalTitleS s), if_neg htz, ht]
      have hdata : (String.mk (canonCore s.data)).data = canonCore s.data := rfl
      rw [hdata]
      rw [ht, hdata] at h1 h2 h3 h4
      rw [canonCore_idem s.data h1 h2 h3 h4]

/-! ## The pure path-distance helper: specification -/

/-- Exact behaviour of `getDistanceFromOptimalPath`: the target short-circuit
comes first; only then is the path consulted (first matching index wins). -/
theorem getDistanceFromOptimalPath_spec (c t : String) (p : List String) :
    (normalizeTitle c = normalizeTitle t →
      getDistanceFromOptimalPath c t (some p) = some 0) ∧
    (normalizeTitle c ≠ normalizeTitle t →
      ∀ i, p.findIdx? (fun x => normalizeTitle x = normalizeTitle c) = some i →
        getDistanceFromOptimalPath c t (some p) = some (p.length - 1 - i)) ∧
    (normalizeTitle c ≠ normalizeTitle t →
      p.findIdx? (fun x => normalizeTitle x = normalizeTitle c) = none →
      getDistanceFromOptimalPath c t (some p) = none) ∧
    (getDistanceFromOptimalPath c t none =
      if normalizeTitle c = normalizeTitle t then some 0 else none) := by
  refine ⟨?_, ?_, ?_, ?_⟩
  · intro heq
    simp [getDistanceFromOptimalPath, heq]
  · intro hne i hfind
    have hp : 0 < p.length := by
      cases p with
      | nil => cases hfind
      | cons a as => simp
    simp [getDistanceFromOptimalPath, hne, hfind, hp]
  · intro hne hfind
    by_cases hp : 0 < p.length
    · simp [getDistanceFromOptimalPath, hne, hfind, hp]
    · simp [getDistanceFromOptimalPath, hne, hp]
  · by_cases heq : normalizeTitle c = normalizeTitle t
    · simp [getDistanceFromOptimalPath, heq]
    · simp [getDistanceFromOptimalPath, heq]

/-! ## Claim theorems -/

/-- C1 (counterexample): on the fixed graph `envBudget`, raising `maxDepth`
from 1 to 2 with `maxNodes = 4` held fixed turns a `NOT_POSSIBLE` result into
`UNKNOWN`, contradicting the claim that raising any budget never turns
`NOT_POSSIBLE` into `UNKNOWN`. -/
theorem C1_counterexample :
    (1 : ℕ) ≤ 2 ∧
    runBFS envBudget "A" "C" 1 4 1000 =
      .notPossible "No path found within 1 hops" ∧
    runBFS envBudget "A" "C" 2 4 1000 = .unknown "Node budget exceeded" :=
  ⟨by decide, rfl, rfl⟩

/-- C1 (amended): with the graph and clock fixed, raising any of
`maxDepth`/`maxNodes`/`maxTimeMs` preserves a `POSSIBLE` result exactly
(same distance and path); raising `maxNodes`/`maxTimeMs` while `maxDepth`
stays fixed preserves a `NOT_POSSIBLE` result exactly.  (Raising `maxDepth`
may turn `NOT_POSSIBLE` into `UNKNOWN`, as the counterexample shows.) -/
theorem C1_budget_monotonicity (env : Env) (s t : String)
    (d d' N N' T T' : ℕ) (hd : d ≤ d') (hN : N ≤ N') (hT : T ≤ T') :
    (∀ dist p, runBFS env s t d N T = .possible dist p →
      runBFS env s t d' N' T' = .possible dist p) ∧
    (∀ reason, runBFS env s t d N T = .notPossible reason →
      runBFS env s t d N' T' = .notPossible reason) :=
  ⟨fun _ _ h => runBFS_mono_possible hd hN hT h,
   fun _ h => runBFS_mono_notPossible hN hT h⟩

/-- C1 witness: the amended monotonicity applied on `envBudget` with
`maxNodes` 4→8 and `maxTimeMs` 1000→2000 at fixed depth 1. -/
theorem C1_witness :
    runBFS envBudget "A" "C" 1 8 2000 =
      .notPossible "No path found within 1 hops" :=
  (C1_budget_monotonicity envBudget "A" "C" 1 1 4 8 1000 2000 (by decide)
    (by decide) (by decide)).2 "No path found within 1 hops" rfl

/-- C2: the search prunes blocked titles only when they appear as candidate
neighbours: every `POSSIBLE` path has unblocked interior nodes, while its
endpoints may be blocked — concretely, the search from the blocked title
`ISBN` to the blocked title `PMID` still returns a path with those
endpoints. -/
theorem C2_blocklist_spares_endpoints :
    (∀ (env : Env) (s t : String) (d N T dist : ℕ) (p : List String),
      runBFS env s t d N T = .possible dist p →
      ∀ y ∈ p, y ≠ s → y ≠ t → isBlockedTitle y = false) ∧
    (isBlockedTitle "ISBN" = true ∧ isBlockedTitle "PMID" = true ∧
      runBFS envBlocked "ISBN" "PMID" 5 100 1000 =
        .possible 2 ["ISBN", "B", "PMID"]) :=
  ⟨fun _ _ _ _ _ _ _ _ h => (runBFS_possible h).2.2.2.2.1,
   by decide, by decide, by decide⟩

/-- C2 witness: the interior node of the `ISBN → B → PMID` run is unblocked. -/
theorem C2_witness : isBlockedTitle "B" = false :=
  C2_blocklist_spares_endpoints.1 envBlocked "ISBN" "PMID" 5 100 1000 2
    ["ISBN", "B", "PMID"] (by decide) "B" (by decide) (by decide) (by decide)

/-- C3: on the chain `A→B→C` (`A→C` absent) with generous node/time budgets,
`search(A, C)` with `maxDepth = 2` returns `POSSIBLE` with distance 2 and
path `[A, B, C]`, and with `maxDepth = 1` returns `NOT_POSSIBLE`. -/
theorem C3_chain_scenarios :
    runBFS envChain "A" "C" 2 100 1000 = .possible 2 ["A", "B", "C"] ∧
    runBFS envChain "A" "C" 1 100 1000 =
      .notPossible "No path found within 1 hops" :=
  ⟨rfl, rfl⟩

/-- C4: every `POSSIBLE` result of the search has
`distance = path.length - 1`, starts at the (already normalized) start,
ends at the target, and every consecutive pair is an edge of the fetched
graph after normalization with the non-endpoint member unblocked — in the
forward or the backward direction, reflecting the backward-approximation
caveat. -/
theorem C4_possible_result_shape (env : Env) (s t : String)
    (d N T dist : ℕ) (p : List String)
    (h : runBFS env s t d N T = .possible dist p) :
    dist = p.length - 1 ∧ p.head? = some s ∧ p.getLast? = some t ∧
    List.Chain' (approxEdge env) p := by
  obtain ⟨h1, h2, h3, _, _, h6⟩ := runBFS_possible h
  exact ⟨h3, h1, h2, h6⟩

/-- C4 witness: the shape facts at the concrete chain run. -/
theorem C4_witness :
    (2 : ℕ) = (["A", "B", "C"] : List String).length - 1 ∧
    (["A", "B", "C"] : List String).head? = some "A" ∧
    (["A", "B", "C"] : List String).getLast? = some "C" ∧
    List.Chain' (approxEdge envChain) ["A", "B", "C"] :=
  C4_possible_result_shape envChain "A" "C" 2 100 1000 2 ["A", "B", "C"] rfl

/-- C5: under the reachable-state invariants (own map well-formed, maps
disjoint, frontier made of own keys), one expansion round keeps the visited
map duplicate-free, never changes an existing entry (so a parent pointer,
once set, is never changed), and keeps the two maps disjoint except at a
reported meeting node; consequently no node appears twice in any
reconstructed `POSSIBLE` path. -/
theorem C5_visited_map_invariants :
    (∀ (env : Env) (r : String) (other : VMap) (T N : ℕ)
        (frontier : List String) (visited : VMap) (tv : ℕ)
        (nf : List String) (k : ℕ),
      GoodMap env r visited → DisjMaps visited other →
      (∀ x ∈ frontier, (aget visited x).isSome) →
      (∀ x ∈ nf, (aget visited x).isSome) →
      (keysOf (expandFrontier env other T N frontier visited tv nf k).visited).Nodup ∧
      (∀ y, (aget visited y).isSome →
        aget (expandFrontier env other T N frontier visited tv nf k).visited y =
          aget visited y) ∧
      (∀ x, (aget (expandFrontier env other T N frontier visited tv nf k).visited x).isSome →
        (aget other x).isSome →
        (expandFrontier env other T N frontier visited tv nf k).meetingPoint = some x)) ∧
    (∀ (env : Env) (s t : String) (d N T dist : ℕ) (p : List String),
      runBFS env s t d N T = .possible dist p → p.Nodup) := by
  constructor
  · intro env r other T N frontier visited tv nf k hgm hdisj hfr hnf
    obtain ⟨w1, w2, w3, w4⟩ :=
      expandFrontier_inv frontier visited tv nf k hgm hdisj hfr hnf
    refine ⟨gm_keys_nodup w1, w2, ?_⟩
    intro x hx hxo
    cases hm : (expandFrontier env other T N frontier visited tv nf k).meetingPoint with
    | none =>
      rw [hm] at w4
      exact (w4 x hx hxo).elim
    | some L =>
      rw [hm] at w4
      exact congrArg some (w4.2.2 x hx hxo).symm
  · intro env s t d N T dist p h
    exact (runBFS_possible h).2.2.2.1

/-- C5 witness: both parts applied at the chain environment. -/
theorem C5_witness :
    (keysOf (expandFrontier envChain [("C", (none : Option String))] 1000 100
      ["A"] [("A", (none : Option String))] 2 [] 0).visited).Nodup ∧
    (["A", "B", "C"] : List String).Nodup := by
  constructor
  · refine (C5_visited_map_invariants.1 envChain "A" [("C", none)] 1000 100
      ["A"] [("A", none)] 2 [] 0 GoodMap.base ?_ ?_ ?_).1
    · intro x hx1 hx2
      have hxa : "A" = x := by
        by_cases hq : "A" = x
        · exact hq
        · simp [aget, hq] at hx1
      rw [← hxa] at hx2
      simp [aget] at hx2
    · intro x hx
      simp at hx
      rw [hx]
      simp [aget]
    · intro x hx
      cases hx
  · exact C5_visited_map_invariants.2 envChain "A" "C" 2 100 1000 2 _ rfl

/-- C6 (counterexample): `canonicalTitle` is not idempotent — the leading
route markers are stripped only once per pass, so `"././a"` canonicalizes to
`"./a"`, which canonicalizes further to `"A"`. -/
theorem C6_counterexample :
    canonicalTitleS (canonicalTitleS "././a") ≠ canonicalTitleS "././a" ∧
    canonicalTitleS "././a" = "./a" ∧ canonicalTitleS "./a" = "A" := by
  refine ⟨?_, by decide, by decide⟩
  decide

/-- C6 (amended): `canonicalTitle` is total (it returns a string on every
input, including `null`/`undefined`/`""`), and it is idempotent on every
input whose canonical form contains no `%` and does not start with one of
the strippable markers `/wiki/`, `./`, `wiki/`. -/
theorem C6_canonicalTitle_total_idem :
    (∀ s : Option String, ∃ r : String, canonicalTitle s = r) ∧
    canonicalTitle none = "" ∧
    canonicalTitleS "" = "" ∧
    (∀ s : String,
      (canonicalTitleS s).data.contains '%' = false →
      List.isPrefixOf "/wiki/".data (canonicalTitleS s).data = false →
      List.isPrefixOf "./".data (canonicalTitleS s).data = false →
      List.isPrefixOf "wiki/".data (canonicalTitleS s).data = false →
      canonicalTitleS (canonicalTitleS s) = canonicalTitleS s) :=
  ⟨fun s => ⟨canonicalTitle s, rfl⟩, rfl, rfl, canonicalTitleS_idem⟩

/-- C6 witness: idempotence at a title whose canonical form has no marker. -/
theorem C6_witness :
    canonicalTitleS (canonicalTitleS "foo  bar_baz") = canonicalTitleS "foo  bar_baz" :=
  C6_canonicalTitle_total_idem.2.2.2 "foo  bar_baz" (by decide) (by decide)
    (by decide) (by decide)

/-- C7 (counterexample): when the queried node equals the target, the helper
returns 0 even though the node's canonical form does not appear in the path,
where the claim requires `null`. -/
theorem C7_counterexample :
    getDistanceFromOptimalPath "X" "X" (some ["A", "B"]) = some 0 ∧
    (∀ x ∈ ["A", "B"], normalizeTitle x ≠ normalizeTitle "X") := by
  refine ⟨by decide, ?_⟩
  decide

/-- C7 (amended): the helper first short-circuits on
`current == target` (returning 0); otherwise, if the node's canonical form
appears in the path, it returns last index minus the first matching index,
else `null`; it is a pure function of its arguments (no search, no I/O). -/
theorem C7_distance_from_optimal_path (c t : String) (p : List String) :
    (normalizeTitle c = normalizeTitle t →
      getDistanceFromOptimalPath c t (some p) = some 0) ∧
    (normalizeTitle c ≠ normalizeTitle t →
      ∀ i, p.findIdx? (fun x => normalizeTitle x = normalizeTitle c) = some i →
        getDistanceFromOptimalPath c t (some p) = some (p.length - 1 - i)) ∧
    (normalizeTitle c ≠ normalizeTitle t →
      p.findIdx? (fun x => normalizeTitle x = normalizeTitle c) = none →
      getDistanceFromOptimalPath c t (some p) = none) ∧
    (getDistanceFromOptimalPath c t none =
      if normalizeTitle c = normalizeTitle t then some 0 else none) :=
  getDistanceFromOptimalPath_spec c t p

/-- C7 witness: the index-arithmetic case on a concrete path. -/
theorem C7_witness :
    getDistanceFromOptimalPath "B" "C" (some ["A", "B", "C"]) = some 1 :=
  (C7_distance_from_optimal_path "B" "C" ["A", "B", "C"]).2.1 (by decide) 1
    (by decide)

/-- C8: the quick-budget entry point (and its alias `getDistanceToTarget`)
reads the path cache but never writes it, while the full- and
extended-budget entry points touch at most their own `(start, target)`
cache key — so a quick-profile call never overwrites or degrades any
previously cached full-profile result. -/
theorem C8_cache_write_policy :
    (∀ (env : Env) (store : Store) (c t : String),
      (quickDistanceCheck env store c t).2 = store) ∧
    (∀ (env : Env) (store : Store) (c t : String),
      (getDistanceToTarget env store c t).2 = store) ∧
    (∀ (env : Env) (store : Store) (s t : String) (d : ℕ) (k' : String),
      k' ≠ pathCacheKey (normalizeTitle s) (normalizeTitle t) →
      aget (runSolver env store s t d).2 k' = aget store k') ∧
    (∀ (env : Env) (store : Store) (s t : String) (d : ℕ) (k' : String),
      k' ≠ pathCacheKey (normalizeTitle s) (normalizeTitle t) →
      aget (findShortestPath env store s t d).2 k' = aget store k') ∧
    (∀ (env : Env) (store : Store) (s t : String) (d : ℕ) (k' : String),
      k' ≠ pathCacheKey (normalizeTitle s) (normalizeTitle t) →
      aget (findShortestPathExtended env store s t d).2 k' = aget store k') :=
  ⟨quickDistanceCheck_store,
   fun env store c t => quickDistanceCheck_store env store c t,
   runSolver_frame,
   fun env store s t d k' hk => runSolver_frame env store s t d k' hk,
   findShortestPathExtended_frame⟩

/-- C8 witness: a quick call leaves a concrete store untouched, and a full
call leaves an unrelated key untouched. -/
theorem C8_witness :
    (quickDistanceCheck envChain [] "A" "C").2 = ([] : Store) ∧
    aget (runSolver envChain [] "A" "C" 7).2 "unrelated" =
      aget ([] : Store) "unrelated" :=
  ⟨C8_cache_write_policy.1 envChain [] "A" "C",
   C8_cache_write_policy.2.2.1 envChain [] "A" "C" 7 "unrelated" (by decide)⟩

/-- C9: a fetch failure is local — a node whose fetch always throws behaves
exactly like a node with no outgoing links, for every graph, pair and
budget (in particular the search still returns an ordinary result and no
exception propagates); concretely, with the fetch for `B` always failing,
`search(A, C)` terminates with `NOT_POSSIBLE` and `search(A, T)` still finds
a path through another route. -/
theorem C9_fetch_failure_local :
    (∀ (env : Env) (b s t : String) (d N T : ℕ),
      runBFS (withFetch env b none) s t d N T =
      runBFS (withFetch env b (some [])) s t d N T) ∧
    envFail.fetch "B" = none ∧
    runBFS envFail "A" "C" 7 100 1000 =
      .notPossible "No path found within 7 hops" ∧
    envFail2.fetch "B" = none ∧
    runBFS envFail2 "A" "T" 7 100 1000 = .possible 3 ["A", "D", "X", "T"] :=
  ⟨runBFS_failEmpty, rfl, rfl, rfl, rfl⟩

/-- C10: unsuccessful results are never memoized — if a `runSolver` or
`findShortestPathExtended` call's result is not `POSSIBLE`, the store is
unchanged; and in every case the store is either unchanged or extended
exactly at the call's own key with the search's `POSSIBLE` path, the write
being skipped when the path contains a blocked title. -/
theorem C10_no_negative_caching :
    (∀ (env : Env) (store : Store) (s t : String) (d : ℕ),
      ((runSolver env store s t d).1.status ≠ SolverStatus.POSSIBLE →
        (runSolver env store s t d).2 = store) ∧
      ((runSolver env store s t d).2 = store ∨
        ∃ dd pp, runBFS env (normalizeTitle s) (normalizeTitle t) d
            MAX_VISITED_NODES MAX_TIME_MS = .possible dd pp ∧
          pathContainsBlockedTitle (some pp) = false ∧
          (runSolver env store s t d).2 =
            aset store (pathCacheKey (normalizeTitle s) (normalizeTitle t))
              ⟨some dd, some pp, .POSSIBLE⟩)) ∧
    (∀ (env : Env) (store : Store) (s t : String) (d : ℕ),
      ((findShortestPathExtended env store s t d).1.status ≠ SolverStatus.POSSIBLE →
        (findShortestPathExtended env store s t d).2 = store) ∧
      ((findShortestPathExtended env store s t d).2 = store ∨
        ∃ dd pp, runBFS env (normalizeTitle s) (normalizeTitle t) d 200000 30000 =
            .possible dd pp ∧
          pathContainsBlockedTitle (some pp) = false ∧
          (findShortestPathExtended env store s t d).2 =
            aset store (pathCacheKey (normalizeTitle s) (normalizeTitle t))
              ⟨some dd, some pp, .POSSIBLE⟩)) :=
  ⟨runSolver_writes, findShortestPathExtended_writes⟩

/-- C10 witness: an unreachable pair leaves a concrete store unchanged. -/
theorem C10_witness : (runSolver envFail [] "A" "C" 7).2 = ([] : Store) :=
  (C10_no_negative_caching.1 envFail [] "A" "C" 7).1 (by decide)

end WikiGuessr
